import Mathlib

/-!
# Connect-Three / Connect-Four minimax engines

A shallow embedding of `ConnectBoard.hpp` and `MiniMax.hpp`.

* The two 64-bit registers `player` and `pieces` are natural numbers; every
  operation that can leave the 64-bit range in C++ is reduced modulo `2 ^ 64`.
* `int` scores are integers; all scores stay far inside the 32-bit range for
  the supported board sizes (`rows, cols ≤ 7`).
* `std::unordered_map` is a finite map, represented by an association list
  with at most one entry per key.
* An `unsigned char best_move` that is never assigned is `none`.
* Recursive searches take a fuel argument; the public entry points supply
  enough fuel for the recursion depth of the C++ code.
-/

set_option maxRecDepth 100000

/-! ## Board state (`ConnectBoard.hpp`) -/

/-- Number of values of a 64-bit register: `unsigned long`, `unsigned long long`. -/
def W : Nat := 2 ^ 64

/-- The C++ `x << k` on a 64-bit unsigned register. A shift count `k ≥ 64` is
undefined in C++; it never occurs for the supported sizes (`rows, cols ≤ 7`). -/
def shl (x k : Nat) : Nat := (x <<< k) % W

/-- The C++ `~x` on a 64-bit unsigned register. -/
def bnot (x : Nat) : Nat := (W - 1) ^^^ (x % W)

/-- The struct `ConnectBoard`: the two registers `player` and `pieces`. -/
structure ConnectBoard where
  player : Nat
  pieces : Nat
deriving DecidableEq

namespace ConnectBoard

/-- The default constructor `ConnectBoard()`: only the turn counter bit 63 set. -/
def empty : ConnectBoard := { pieces := shl 1 63, player := 0 }

/-- The comparison `operator==`. -/
def beq (b other : ConnectBoard) : Bool :=
  other.player == b.player && other.pieces == b.pieces

/-- The method `is_player_one`. -/
def is_player_one (b : ConnectBoard) : Bool :=
  b.player &&& shl 1 63 != 0

/-- The method `is_invalid_move(col, max_rows)`: the test of bit
`8 * col + max_rows - 1` of `pieces`, for `max_rows ≥ 1`. -/
def is_invalid_move (b : ConnectBoard) (col max_rows : Nat) : Bool :=
  b.pieces &&& shl 1 (8 * col + max_rows - 1) != 0

/-- The method `is_full(cols, max_rows)`: the loop returns `false` at the first
valid column. -/
def is_full (b : ConnectBoard) (cols max_rows : Nat) : Bool :=
  (List.range cols).all (fun i => b.is_invalid_move i max_rows)

/-- The method `make_move(col)`: `player ^= pieces; pieces |= pieces + (1 << 8 * col)`. -/
def make_move (b : ConnectBoard) (col : Nat) : ConnectBoard :=
  { player := b.player ^^^ b.pieces
    pieces := b.pieces ||| ((b.pieces + shl 1 (8 * col)) % W) }

/-- The method `make_neighbor(col)`:
`ConnectBoard{pieces | (pieces + (1 << 8 * col)), player ^ pieces}`. -/
def make_neighbor (b : ConnectBoard) (col : Nat) : ConnectBoard :=
  { pieces := b.pieces ||| ((b.pieces + shl 1 (8 * col)) % W)
    player := b.player ^^^ b.pieces }

/-- One direction of a win check: `collapsed = check & (check << o)` followed by
the test `collapsed & (collapsed << o2)`. -/
def fold_check (check o o2 : Nat) : Bool :=
  let collapsed := check &&& shl check o
  collapsed &&& shl collapsed o2 != 0

/-- The method `connect_three_game_over`. -/
def connect_three_game_over (b : ConnectBoard) : Bool :=
  let check := b.player ^^^ b.pieces
  if fold_check check 8 8 then true
  else if fold_check check 1 1 then true
  else if fold_check check 7 7 then true
  else fold_check check 9 9

/-- The method `connect_four_game_over`. -/
def connect_four_game_over (b : ConnectBoard) : Bool :=
  let check := b.player ^^^ b.pieces
  if fold_check check 8 16 then true
  else if fold_check check 1 2 then true
  else if fold_check check 7 14 then true
  else fold_check check 9 18

/-- The method `game_over(chain)`. -/
def game_over (b : ConnectBoard) (chain : Nat) : Bool :=
  (chain == 3 && b.connect_three_game_over) || (chain == 4 && b.connect_four_game_over)

/-- The symbol `print_board` writes for the cell in column `j`, row `i`. -/
def print_cell (b : ConnectBoard) (i j : Nat) : Char :=
  let one := if b.is_player_one then 'O' else 'X'
  let two := if b.is_player_one then 'X' else 'O'
  if b.player &&& shl 1 (j * 8 + i) != 0 then one
  else if b.pieces &&& shl 1 (j * 8 + i) != 0 then two
  else ' '

end ConnectBoard

/-- The board after the moves `ms` (columns, in the order played) from the
empty board, each applied with `make_move`. -/
def play (ms : List Nat) : ConnectBoard :=
  ms.foldl ConnectBoard.make_move ConnectBoard.empty

/-! ## Transposition table -/

/-- A table entry `std::pair<int, unsigned char>`: score and best move. The
move is `none` when the `unsigned char` was stored without ever being assigned. -/
abbrev Entry := Int × Option Nat

/-- The `std::unordered_map<ConnectBoard, std::pair<int, unsigned char>>`. -/
abbrev Table := List (ConnectBoard × Entry)

/-- The lookup `table.find(board)`. -/
def Table.find : Table → ConnectBoard → Option Entry
  | [], _ => none
  | (k, v) :: rest, b => if k = b then some v else Table.find rest b

/-- The assignment `table[board] = v`. -/
def Table.set : Table → ConnectBoard → Entry → Table
  | [], b, v => [(b, v)]
  | (k, w) :: rest, b, v => if k = b then (k, v) :: rest else (k, w) :: Table.set rest b v

/-- The read `table[board]`, which inserts the value-initialised pair `(0, 0)`
when the key is absent. -/
def Table.index (t : Table) (b : ConnectBoard) : Entry × Table :=
  match t.find b with
  | some e => (e, t)
  | none => ((0, some 0), t.set b (0, some 0))

/-- The constant `std::numeric_limits<int>::min()`. -/
def INT_MIN : Int := -2147483648

/-- The constant `std::numeric_limits<int>::max()`. -/
def INT_MAX : Int := 2147483647

/-- The local `compare` of the searches: `std::greater` when maximising,
`std::less` when minimising. -/
def compare_fn (max : Bool) (a b : Int) : Bool :=
  if max then decide (a > b) else decide (a < b)

/-! ## Exhaustive engine (`FullMiniMax`) -/

/-- The struct `FullMiniMax`: the configuration and the transposition table. -/
structure FullMiniMax where
  rows : Nat
  cols : Nat
  chain : Nat
  optimized : Bool
  table : Table

namespace FullMiniMax

/-- The method `score(depth)`: `10000 * rows * cols / depth`. -/
def score (rows cols depth : Nat) : Int := ((10000 * rows * cols / depth : Nat) : Int)

/-- The column loop of `efficient_traverse`, from the columns still to visit,
the table, `best_score` and `best_move`; `recur` is the recursive call on a
child. -/
def eff_loop (rows cols chain : Nat) (recur : Table → ConnectBoard → Option (Int × Table))
    (board : ConnectBoard) (max : Bool) (depth : Nat) :
    List Nat → Table → Int → Option Nat → Option (Table × Int × Option Nat)
  | [], t, best_score, best_move => some (t, best_score, best_move)
  | col :: rest, t, best_score, best_move =>
    if board.is_invalid_move col rows then
      eff_loop rows cols chain recur board max depth rest t best_score best_move
    else if (board.make_neighbor col).game_over chain then
      some (t, if max then score rows cols (depth + 1) else -score rows cols (depth + 1),
        some col)
    else
      match recur t (board.make_neighbor col) with
      | none => none
      | some (current, t1) =>
        if compare_fn max current best_score then
          eff_loop rows cols chain recur board max depth rest t1 current (some col)
        else
          eff_loop rows cols chain recur board max depth rest t1 best_score best_move

/-- The method `efficient_traverse(board, max, depth)`; the table is passed in
and returned. The result is `none` only when the fuel is exhausted. -/
def efficient_traverse (rows cols chain : Nat) :
    Nat → Table → ConnectBoard → Bool → Nat → Option (Int × Table)
  | 0, _, _, _, _ => none
  | fuel + 1, table, board, max, depth =>
    match table.find board with
    | some e => some (e.1, table)
    | none =>
      if depth = rows * cols then some (0, table)
      else
        match eff_loop rows cols chain
            (fun t b => efficient_traverse rows cols chain fuel t b (!max) (depth + 1))
            board max depth (List.range cols) table (if max then INT_MIN else INT_MAX) none with
        | none => none
        | some (t1, best_score, best_move) =>
          some (best_score, t1.set board (best_score, best_move))

/-- The column loop of `traverse`. -/
def plain_loop (rows : Nat) (recur : Table → ConnectBoard → Option (Int × Table))
    (board : ConnectBoard) (max : Bool) :
    List Nat → Table → Int → Option Nat → Option (Table × Int × Option Nat)
  | [], t, best_score, best_move => some (t, best_score, best_move)
  | col :: rest, t, best_score, best_move =>
    if board.is_invalid_move col rows then
      plain_loop rows recur board max rest t best_score best_move
    else
      match recur t (board.make_neighbor col) with
      | none => none
      | some (current, t1) =>
        if compare_fn max current best_score then
          plain_loop rows recur board max rest t1 current (some col)
        else
          plain_loop rows recur board max rest t1 best_score best_move

/-- The method `traverse(board, max, depth)` of `FullMiniMax`. -/
def traverse (rows cols chain : Nat) :
    Nat → Table → ConnectBoard → Bool → Nat → Option (Int × Table)
  | 0, _, _, _, _ => none
  | fuel + 1, table, board, max, depth =>
    match table.find board with
    | some e => some (e.1, table)
    | none =>
      if board.game_over chain then
        let best_score := if max then -score rows cols (depth + 1) else score rows cols (depth + 1)
        some (best_score, table.set board (best_score, some 0))
      else if depth = rows * cols then some (0, table.set board (0, some 0))
      else
        match plain_loop rows
            (fun t b => traverse rows cols chain fuel t b (!max) (depth + 1))
            board max (List.range cols) table (if max then INT_MIN else INT_MAX) none with
        | none => none
        | some (t1, best_score, best_move) =>
          some (best_score, t1.set board (best_score, best_move))

/-- The search started by `operator()` when the board is not in the table.
The recursion of both traversals stops at `depth == rows * cols`, so
`rows * cols + 1` levels of fuel cover it. -/
def search (e : FullMiniMax) (board : ConnectBoard) : Option (Int × Table) :=
  if e.optimized then
    efficient_traverse e.rows e.cols e.chain (e.rows * e.cols + 1) e.table board true 0
  else
    traverse e.rows e.cols e.chain (e.rows * e.cols + 1) e.table board true 0

/-- The call `operator()(board)`: the returned pair `table[board]` and the
engine with its updated table. -/
def call (e : FullMiniMax) (board : ConnectBoard) : Option (Entry × FullMiniMax) :=
  match e.table.find board with
  | some v => some (v, e)
  | none =>
    match e.search board with
    | none => none
    | some (_, t1) =>
      let r := t1.index board
      some (r.1, { e with table := r.2 })

/-- A freshly constructed engine `FullMiniMax{rows, cols, chain, optimized}`. -/
def fresh (rows cols chain : Nat) (optimized : Bool) : FullMiniMax :=
  { rows := rows, cols := cols, chain := chain, optimized := optimized, table := [] }

end FullMiniMax

/-- The score of a query result, if the query returned. -/
def scoreOf (r : Option (Entry × FullMiniMax)) : Option Int := r.map (fun x => x.1.1)

/-- The column of a query result; `some none` is a returned but never assigned
column. -/
def columnOf (r : Option (Entry × FullMiniMax)) : Option (Option Nat) := r.map (fun x => x.1.2)

/-! ## Heuristic engine (`HeuristicMiniMax`) -/

/-- The struct `HeuristicMiniMax`: configuration, the mask `boundary_spaces`
computed by the constructor, and the transposition table. -/
structure HeuristicMiniMax where
  rows : Nat
  cols : Nat
  chain : Nat
  max_depth : Nat
  boundary_spaces : Nat
  table : Table

namespace HeuristicMiniMax

/-- The member constant `win_score`. -/
def win_score : Int := 100000

/-- The member constant `singleton_value`. -/
def singleton_value : Int := 500

/-- The member constant `two_chain_value`. -/
def two_chain_value : Int := 2000

/-- The member constant `three_chain_value`. -/
def three_chain_value : Int := 5000

/-- The mask the constructor computes: all ones, with
`column << (8 * i)` toggled off for every `i < cols`, where
`column = 2 ^ rows - 1`. -/
def boundary (rows cols : Nat) : Nat :=
  (List.range cols).foldl (fun acc i => acc ^^^ shl ((2 ^ rows - 1) % W) (8 * i)) (W - 1)

/-- The constructor `HeuristicMiniMax{rows, cols, chain, max_depth}`. -/
def fresh (rows cols chain max_depth : Nat) : HeuristicMiniMax :=
  { rows := rows, cols := cols, chain := chain, max_depth := max_depth,
    boundary_spaces := boundary rows cols, table := [] }

/-- The loop of `count_bits`: `for (; n; ++c) n &= n - 1`. -/
def count_bits_loop : Nat → Nat → Nat → Nat
  | 0, _, c => c
  | fuel + 1, n, c => if n = 0 then c else count_bits_loop fuel (n &&& (n - 1)) (c + 1)

/-- The function `count_bits(n)`; a 64-bit value has at most 64 set bits, and
the counter is an `unsigned char`. -/
def count_bits (n : Nat) : Nat := count_bits_loop 64 (n % W) 0 % 256

/-- The local `empty_spaces = ~pieces ^ boundary_spaces` of the chain counters. -/
def empty_spaces (boundary_spaces pieces : Nat) : Nat := bnot pieces ^^^ boundary_spaces

/-- The method `count_right_three_chains(player, pieces, offset)`. -/
def count_right_three_chains (boundary_spaces player pieces offset : Nat) : Int :=
  let empty_spaces := empty_spaces boundary_spaces pieces
  let two_spaces := (empty_spaces &&& (empty_spaces >>> offset)) >>> (2 * offset)
  let usable_pieces := count_bits (player &&& two_spaces)
  let two_chains := player &&& (player >>> offset)
  let empty := empty_spaces >>> (2 * offset)
  let valid_twos := count_bits (two_chains &&& empty)
  two_chain_value * valid_twos + singleton_value * usable_pieces

/-- The method `count_left_three_chains(player, pieces, offset)`. -/
def count_left_three_chains (boundary_spaces player pieces offset : Nat) : Int :=
  let empty_spaces := empty_spaces boundary_spaces pieces
  let two_spaces := shl (empty_spaces &&& shl empty_spaces offset) (2 * offset)
  let usable_pieces := count_bits (player &&& two_spaces)
  let two_chains := player &&& shl player offset
  let empty := shl empty_spaces (2 * offset)
  let valid_twos := count_bits (two_chains &&& empty)
  two_chain_value * valid_twos + singleton_value * usable_pieces

/-- The method `count_right_four_chains(player, pieces, offset)`. -/
def count_right_four_chains (boundary_spaces player pieces offset : Nat) : Int :=
  let empty_spaces := empty_spaces boundary_spaces pieces
  let two_spaces := empty_spaces &&& (empty_spaces >>> offset)
  let three_spaces := (two_spaces &&& (two_spaces >>> offset)) >>> (3 * offset)
  let usable_pieces := count_bits (player &&& three_spaces)
  let two_chains := player &&& (player >>> offset)
  let two_empty := (empty_spaces &&& (empty_spaces >>> offset)) >>> (2 * offset)
  let valid_twos := count_bits (two_chains &&& two_empty)
  let three_chains := two_chains &&& (two_chains >>> offset)
  let single_space := empty_spaces >>> (3 * offset)
  let valid_threes := count_bits (three_chains &&& single_space)
  three_chain_value * valid_threes + two_chain_value * valid_twos
    + singleton_value * usable_pieces

/-- The method `count_left_four_chains(player, pieces, offset)`. -/
def count_left_four_chains (boundary_spaces player pieces offset : Nat) : Int :=
  let empty_spaces := empty_spaces boundary_spaces pieces
  let two_chains := player &&& shl player offset
  let two_empty := shl (empty_spaces &&& shl empty_spaces offset) (2 * offset)
  let valid_twos := count_bits (two_chains &&& two_empty)
  let three_chains := two_chains &&& shl two_chains offset
  let single_space := shl empty_spaces (3 * offset)
  let valid_threes := count_bits (three_chains &&& single_space)
  three_chain_value * valid_threes + two_chain_value * valid_twos

/-- The array `offsets` of `heuristic`: vertical, anti-diagonal, horizontal, diagonal. -/
def offsets : List Nat := [1, 7, 8, 9]

/-- The body of one iteration of the loops of `heuristic`: the pair
`(player_total, opponent_total)` after adding the four counts of `offset`. -/
def heuristic_step (chain boundary_spaces player opponent pieces : Nat)
    (totals : Int × Int) (offset : Nat) : Int × Int :=
  if chain = 4 then
    (totals.1 + count_left_four_chains boundary_spaces player pieces offset
        + count_right_four_chains boundary_spaces player pieces offset,
     totals.2 + count_left_four_chains boundary_spaces opponent pieces offset
        + count_right_four_chains boundary_spaces opponent pieces offset)
  else
    (totals.1 + count_left_three_chains boundary_spaces player pieces offset
        + count_right_three_chains boundary_spaces player pieces offset,
     totals.2 + count_left_three_chains boundary_spaces opponent pieces offset
        + count_right_three_chains boundary_spaces opponent pieces offset)

/-- The method `heuristic(board)`: `player = board.player`,
`opponent = board.player ^ board.pieces`, result `player_total - opponent_total`. -/
def heuristic (chain boundary_spaces : Nat) (board : ConnectBoard) : Int :=
  let pieces := board.pieces
  let player := board.player
  let opponent := board.player ^^^ board.pieces
  let totals := offsets.foldl (heuristic_step chain boundary_spaces player opponent pieces) (0, 0)
  totals.1 - totals.2

/-- The column loop of `HeuristicMiniMax::traverse`. The state is the table,
`best_score`, `best_move`, `moved` and the local copies of `alpha` and `beta`. -/
def heur_loop (rows chain : Nat)
    (recur : Table → ConnectBoard → Int → Int → Option (Int × Table))
    (board : ConnectBoard) (max : Bool) (depth : Nat) :
    List Nat → Table → Int → Option Nat → Bool → Int → Int →
      Option (Table × Int × Option Nat × Bool)
  | [], t, best_score, best_move, moved, _, _ => some (t, best_score, best_move, moved)
  | i :: rest, t, best_score, best_move, moved, alpha, beta =>
    if board.is_invalid_move i rows then
      heur_loop rows chain recur board max depth rest t best_score best_move moved alpha beta
    else if (board.make_neighbor i).game_over chain then
      some (t, if max then Int.tdiv win_score depth else Int.tdiv (-win_score) depth,
        some i, true)
    else
      match recur t (board.make_neighbor i) alpha beta with
      | none => none
      | some (current, t1) =>
        if compare_fn max current best_score then
          if compare_fn max current (if max then beta else alpha) then
            some (t1, current, some i, true)
          else if compare_fn max current (if max then alpha else beta) then
            heur_loop rows chain recur board max depth rest t1 current (some i) true
              (if max then current else alpha) (if max then beta else current)
          else
            heur_loop rows chain recur board max depth rest t1 current (some i) true alpha beta
        else
          heur_loop rows chain recur board max depth rest t1 best_score best_move true alpha beta

/-- The method `traverse(board, max, depth, alpha, beta)` of `HeuristicMiniMax`. -/
def traverse (rows cols chain max_depth boundary_spaces : Nat) :
    Nat → Table → ConnectBoard → Bool → Nat → Int → Int → Option (Int × Table)
  | 0, _, _, _, _, _, _ => none
  | fuel + 1, table, board, max, depth, alpha, beta =>
    match table.find board with
    | some e => some (e.1, table)
    | none =>
      if depth = max_depth then
        some (if max then heuristic chain boundary_spaces board
              else -heuristic chain boundary_spaces board, table)
      else
        match heur_loop rows chain
            (fun t b al be =>
              traverse rows cols chain max_depth boundary_spaces fuel t b (!max) (depth + 1) al be)
            board max depth (List.range cols) table (if max then INT_MIN else INT_MAX) none
            false alpha beta with
        | none => none
        | some (t1, best_score, best_move, moved) =>
          if moved then some (best_score, t1.set board (best_score, best_move))
          else some (0, t1)

/-- The call `operator()(board)`: the table is cleared, `traverse(board, true)`
runs with `depth = 1` and the full window, and `table[board]` is returned. The
recursion stops at `depth == max_depth`, so `max_depth` levels of fuel cover it
when `max_depth ≥ 1`. -/
def call (e : HeuristicMiniMax) (board : ConnectBoard) : Option (Entry × HeuristicMiniMax) :=
  match traverse e.rows e.cols e.chain e.max_depth e.boundary_spaces e.max_depth []
      board true 1 INT_MIN INT_MAX with
  | none => none
  | some (_, t1) =>
    let r := t1.index board
    some (r.1, { e with table := r.2 })

end HeuristicMiniMax

/-- The score of a query result of the heuristic engine. -/
def hscoreOf (r : Option (Entry × HeuristicMiniMax)) : Option Int := r.map (fun x => x.1.1)

/-- The column of a query result of the heuristic engine. -/
def hcolumnOf (r : Option (Entry × HeuristicMiniMax)) : Option (Option Nat) :=
  r.map (fun x => x.1.2)

/-! ## Reference notions: legal play, stones, lines, game value -/

/-- Legality of playing the columns `ms` in order from board `b` on a
`rows × cols` board: every column is `< cols` and passes the
`is_invalid_move` check at the moment it is played. -/
def legalFrom (rows cols : Nat) : ConnectBoard → List Nat → Bool
  | _, [] => true
  | b, c :: rest =>
    decide (c < cols) && !b.is_invalid_move c rows && legalFrom rows cols (b.make_move c) rest

/-- Legality of a whole game record, played from the empty board. -/
def legal (rows cols : Nat) (ms : List Nat) : Bool := legalFrom rows cols ConnectBoard.empty ms

/-- Owner of cell (column `c`, row `r`) when the moves `ms` are played and the
first of them is move number `j` (counted from 0): the stone in row `r` of
column `c` comes from the `(r+1)`-th move into `c`; `true` is the first player,
who makes the moves with even number. -/
def ownerFrom : List Nat → Nat → Nat → Nat → Option Bool
  | [], _, _, _ => none
  | m :: rest, c, r, j =>
    if m = c then
      match r with
      | 0 => some (j % 2 == 0)
      | r1 + 1 => ownerFrom rest c r1 (j + 1)
    else ownerFrom rest c r (j + 1)

/-- Owner of cell (column `c`, row `r`) after the game record `ms`. -/
def owner (ms : List Nat) (c r : Nat) : Option Bool := ownerFrom ms c r 0

/-- The player who made the last move of a non-empty record: `true` is the
first player. -/
def lastMover (ms : List Nat) : Bool := ms.length % 2 == 1

/-- Cell number `i` of the line that starts in column `c`, row `r` and runs in
direction `dir`: 0 vertical (upwards), 1 horizontal, 2 rising diagonal,
3 falling diagonal (listed from its top-left cell). -/
def lineCell (dir : Nat) (c r i : Nat) : Nat × Int :=
  match dir with
  | 0 => (c, (r : Int) + i)
  | 1 => (c + i, (r : Int))
  | 2 => (c + i, (r : Int) + i)
  | _ => (c + i, (r : Int) - i)

/-- Player `p` owns cell `(c, r)` of the `rows × cols` grid after `ms`. -/
def ownsCell (rows cols : Nat) (ms : List Nat) (p : Bool) (c : Nat) (r : Int) : Bool :=
  decide (c < cols) && decide (0 ≤ r) && decide (r < rows) && (owner ms c r.toNat == some p)

/-- Player `p` owns `k` consecutive cells of the grid along some vertical,
horizontal or diagonal line. -/
def hasLine (rows cols k : Nat) (ms : List Nat) (p : Bool) : Bool :=
  (List.range 4).any fun dir =>
    (List.range cols).any fun c =>
      (List.range rows).any fun r =>
        (List.range k).all fun i =>
          ownsCell rows cols ms p (lineCell dir c r i).1 (lineCell dir c r i).2

/-- The game on a `rows × cols` board with target `chain`, defined by
`is_invalid_move`, `make_neighbor` and `game_over`: `CanForce p turn b` says
that player `p` can force a win from position `b` with `turn` to move, a line
of play ending at the first position with `game_over` true. -/
inductive CanForce (rows cols chain : Nat) (p : Bool) : Bool → ConnectBoard → Prop
  | win_now {turn : Bool} {b : ConnectBoard} (c : Nat) (ht : turn = p) (hc : c < cols)
      (hv : b.is_invalid_move c rows = false)
      (hw : (b.make_neighbor c).game_over chain = true) : CanForce rows cols chain p turn b
  | own_move {turn : Bool} {b : ConnectBoard} (c : Nat) (ht : turn = p) (hc : c < cols)
      (hv : b.is_invalid_move c rows = false)
      (hw : (b.make_neighbor c).game_over chain = false)
      (h : CanForce rows cols chain p (!turn) (b.make_neighbor c)) :
      CanForce rows cols chain p turn b
  | any_reply {turn : Bool} {b : ConnectBoard} (ht : turn ≠ p)
      (hex : ∃ c, c < cols ∧ b.is_invalid_move c rows = false)
      (hw : ∀ c, c < cols → b.is_invalid_move c rows = false →
        (b.make_neighbor c).game_over chain = false)
      (h : ∀ c, c < cols → b.is_invalid_move c rows = false →
        CanForce rows cols chain p (!turn) (b.make_neighbor c)) :
      CanForce rows cols chain p turn b

/-- The largest element of a list of scores, `INT_MIN` for the empty list. -/
def maxList (l : List Int) : Int := l.foldl Max.max INT_MIN

/-- The smallest element of a list of scores, `INT_MAX` for the empty list. -/
def minList (l : List Int) : Int := l.foldl Min.min INT_MAX

/-- Depth-limited minimax without pruning and without table, in the order of
the tests of `HeuristicMiniMax::traverse`: a node at `depth == max_depth` is
worth `±heuristic`, a node with an immediately winning child `±100000/depth`,
a node with no playable column `0`, any other node the max or min over all
playable children. -/
def plain_minimax (rows cols chain max_depth boundary_spaces : Nat) :
    Nat → ConnectBoard → Bool → Nat → Int
  | 0, _, _, _ => 0
  | fuel + 1, b, max, depth =>
    let moves := (List.range cols).filter (fun c => !b.is_invalid_move c rows)
    if depth = max_depth then
      (if max then HeuristicMiniMax.heuristic chain boundary_spaces b
       else -HeuristicMiniMax.heuristic chain boundary_spaces b)
    else if moves.any (fun c => (b.make_neighbor c).game_over chain) then
      (if max then (100000 : Int) / depth else -((100000 : Int) / depth))
    else if moves.isEmpty then 0
    else
      let vals := moves.map (fun c =>
        plain_minimax rows cols chain max_depth boundary_spaces fuel (b.make_neighbor c) (!max)
          (depth + 1))
      if max then maxList vals else minList vals

/-- The same minimax with the tests in the order in which the claim lists
them: an immediately winning child is looked for first, also at
`depth == max_depth`. -/
def plain_minimax_win_first (rows cols chain max_depth boundary_spaces : Nat) :
    Nat → ConnectBoard → Bool → Nat → Int
  | 0, _, _, _ => 0
  | fuel + 1, b, max, depth =>
    let moves := (List.range cols).filter (fun c => !b.is_invalid_move c rows)
    if moves.any (fun c => (b.make_neighbor c).game_over chain) then
      (if max then (100000 : Int) / depth else -((100000 : Int) / depth))
    else if depth = max_depth then
      (if max then HeuristicMiniMax.heuristic chain boundary_spaces b
       else -HeuristicMiniMax.heuristic chain boundary_spaces b)
    else if moves.isEmpty then 0
    else
      let vals := moves.map (fun c =>
        plain_minimax_win_first rows cols chain max_depth boundary_spaces fuel
          (b.make_neighbor c) (!max) (depth + 1))
      if max then maxList vals else minList vals

/-- The horizontal mirror image of a game record on a board with `cols`
columns: column `c` becomes column `cols - 1 - c`. -/
def mirror (cols : Nat) (ms : List Nat) : List Nat := ms.map (fun c => cols - 1 - c)

/-- Bit `i` is an in-bounds cell of the `rows × cols` grid that holds no stone. -/
def emptyCell (rows cols pieces i : Nat) : Bool :=
  decide (i / 8 < cols) && decide (i % 8 < rows) && !pieces.testBit i

/-- The count the specification gives for `count_right_three_chains`:
`2000 ×` the cells `i` with `i` and `i + o` in `p` and `i + 2o` an empty cell,
plus `500 ×` the cells `i` in `p` with `i + o` and `i + 2o` both empty cells. -/
def spec_right_three (rows cols p pieces o : Nat) : Int :=
  2000 * (((List.range 64).filter fun i =>
      p.testBit i && p.testBit (i + o) && emptyCell rows cols pieces (i + 2 * o)).length : Int)
  + 500 * (((List.range 64).filter fun i =>
      p.testBit i && emptyCell rows cols pieces (i + o)
        && emptyCell rows cols pieces (i + 2 * o)).length : Int)

/-- The weighted chain total `heuristic` accumulates for one stone set `p`:
the left and right counts over the four offsets. -/
def chain_total (chain boundary_spaces p pieces : Nat) : Int :=
  (HeuristicMiniMax.offsets.map fun o =>
    if chain = 4 then
      HeuristicMiniMax.count_left_four_chains boundary_spaces p pieces o
        + HeuristicMiniMax.count_right_four_chains boundary_spaces p pieces o
    else
      HeuristicMiniMax.count_left_three_chains boundary_spaces p pieces o
        + HeuristicMiniMax.count_right_three_chains boundary_spaces p pieces o).sum

/-- The shape of the register `pieces` after the game record `ms` on a
`rows × cols` board: every move is into a column `< cols`, no column holds
more than `rows` stones, bit 63 is set, and bit `8 * c + r` (with `r < 8`) is
set exactly when `r` is below the number of stones in column `c`. -/
def Stacked (rows cols : Nat) (ms : List Nat) (p : Nat) : Prop :=
  (∀ c, c ∈ ms → c < cols) ∧ (∀ c, ms.count c ≤ rows) ∧
    ∀ i, p.testBit i = (decide (i = 63) || decide (i % 8 < ms.count (i / 8)))

/-- Position `b` is reached from the empty board by `d` legal moves on the
`rows × cols` board. -/
def Good (rows cols d : Nat) (b : ConnectBoard) : Prop :=
  ∃ ms, legal rows cols ms = true ∧ play ms = b ∧ ms.length = d

/-- The role at depth `d` of a search started on the empty board with
`max = true`: maximising at even depth. -/
def roleAt (d : Nat) : Bool := decide (d % 2 = 0)

/-- A score seen from the side to move: unchanged for the maximiser, negated
for the minimiser. -/
def rel (max : Bool) (s : Int) : Int := if max then s else -s

/-- Score `s` has the sign of the game value of position `b` with `turn` to
move (`true` is the first player, the maximiser): positive for the side to
move iff the side to move can force a win, negative iff the other side can. -/
def SignOK (rows cols chain : Nat) (turn : Bool) (b : ConnectBoard) (s : Int) : Prop :=
  (0 < rel turn s ↔ CanForce rows cols chain turn turn b)
    ∧ (rel turn s < 0 ↔ CanForce rows cols chain (!turn) turn b)

/-- The scores `efficient_traverse` can return from the empty board: 0, or
`score(k)` for a win of the first player with `k` (odd) stones on the board, or
`-score(k)` for a win of the second player with `k` (even) stones. -/
def FormE (rows cols : Nat) (s : Int) : Prop :=
  s = 0 ∨ ∃ k, 1 ≤ k ∧ k ≤ rows * cols ∧
    ((k % 2 = 1 ∧ s = FullMiniMax.score rows cols k)
      ∨ (k % 2 = 0 ∧ s = -FullMiniMax.score rows cols k))

/-- The scores `traverse` can return from the empty board: 0, or
`score(k + 1)` for a win of the first player with `k` (odd) stones on the
board, or `-score(k + 1)` for a win of the second player with `k` (even)
stones. -/
def FormP (rows cols : Nat) (s : Int) : Prop :=
  s = 0 ∨ ∃ k, 1 ≤ k ∧ k ≤ rows * cols ∧
    ((k % 2 = 1 ∧ s = FullMiniMax.score rows cols (k + 1))
      ∨ (k % 2 = 0 ∧ s = -FullMiniMax.score rows cols (k + 1)))

/-- Invariant of the table of the optimized search: every stored position is
reachable and its stored score has the right sign and form. -/
def TableE (rows cols chain : Nat) (t : Table) : Prop :=
  ∀ b e, t.find b = some e →
    ∃ d, Good rows cols d b ∧ SignOK rows cols chain (roleAt d) b e.1 ∧ FormE rows cols e.1

/-- What the plain search computes for a position at depth `d`: for a won
position the score of the player who moved last, otherwise a score with the
sign of the game value. -/
def PlainOK (rows cols chain d : Nat) (b : ConnectBoard) (s : Int) : Prop :=
  (b.game_over chain = true → rel (roleAt d) s < 0)
    ∧ (b.game_over chain = false → SignOK rows cols chain (roleAt d) b s)

/-- Invariant of the table of the plain search. -/
def TableP (rows cols chain : Nat) (t : Table) : Prop :=
  ∀ b e, t.find b = some e →
    ∃ d, Good rows cols d b ∧ PlainOK rows cols chain d b e.1 ∧ FormP rows cols e.1

/-- The initial `best_score` of a node: `INT_MIN` when maximising, `INT_MAX`
when minimising. -/
def sentinel (max : Bool) : Int := if max then INT_MIN else INT_MAX

/-- The lowest playable column whose move ends the game at once, if any. -/
def first_win (rows cols chain : Nat) (b : ConnectBoard) : Option Nat :=
  (List.range cols).find? fun c =>
    !b.is_invalid_move c rows && (b.make_neighbor c).game_over chain

/-- A strategy given by a book of positions: take an immediate win if there is
one, otherwise the column the book gives, otherwise column 0. -/
def book_strategy (rows cols chain : Nat) (book : List (ConnectBoard × Nat))
    (b : ConnectBoard) : Nat :=
  match first_win rows cols chain b with
  | some c => c
  | none =>
    match book.find? (fun e => decide (e.1 = b)) with
    | some e => e.2
    | none => 0

/-- Check that the side to move wins within `n` of its own moves by following
`strat`, whatever the other side replies. -/
def forced (rows cols chain : Nat) (strat : ConnectBoard → Nat) : Nat → ConnectBoard → Bool
  | 0, _ => false
  | n + 1, b =>
    decide (strat b < cols) && !b.is_invalid_move (strat b) rows
      && ((b.make_neighbor (strat b)).game_over chain
          || ((List.range cols).any (fun c2 =>
                !(b.make_neighbor (strat b)).is_invalid_move c2 rows)
              && (List.range cols).all (fun c2 =>
                (b.make_neighbor (strat b)).is_invalid_move c2 rows
                  || (!((b.make_neighbor (strat b)).make_neighbor c2).game_over chain
                      && forced rows cols chain strat n
                          ((b.make_neighbor (strat b)).make_neighbor c2)))))

/-- A book for the first player on the 3 × 4 board with target 3. -/
def book_3x4 : List (ConnectBoard × Nat) :=
  [({ player := 0, pieces := 9223372036854775808 }, 1),
   ({ player := 256, pieces := 9223372036854776065 }, 1),
   ({ player := 768, pieces := 9223372036854777601 }, 2),
   ({ player := 66304, pieces := 9223372036871620353 }, 2),
   ({ player := 256, pieces := 9223372036854776576 }, 2),
   ({ player := 256, pieces := 9223372036854841600 }, 1),
   ({ player := 768, pieces := 9223372036854843136 }, 2),
   ({ player := 131840, pieces := 9223372036855236352 }, 3),
   ({ player := 256, pieces := 9223372036871553280 }, 1),
   ({ player := 768, pieces := 9223372036871554816 }, 0),
   ({ player := 769, pieces := 9223372036871620353 }, 2)]

/-- The structural invariant of the register `pieces` on a `rows × cols`
board: bit 63 is set, in every column `c < cols` the set bits are exactly the
rows `0 .. h - 1` for some height `h ≤ rows`, and no bit of a column `≥ cols`
other than bit 63 is set. -/
def Structured (rows cols : Nat) (p : Nat) : Prop :=
  p.testBit 63 = true
    ∧ (∀ c, c < cols → ∃ h, h ≤ rows ∧ ∀ r, r < 8 → p.testBit (8 * c + r) = decide (r < h))
    ∧ (∀ i, i ≠ 63 → cols ≤ i / 8 → p.testBit i = false)

/-- The symbol the specification gives to a cell: `X` for a stone of the first
player, `O` for a stone of the second player, a blank for an empty cell. -/
def symbolOf : Option Bool → Char
  | some true => 'X'
  | some false => 'O'
  | none => ' '

/-- Cell (column `c`, row `r`) lies on the `rows × cols` grid and its bit
`8 * c + r` is set in the mask `M`. -/
def maskCell (rows cols M : Nat) (c : Nat) (r : Int) : Prop :=
  c < cols ∧ 0 ≤ r ∧ r < rows ∧ M.testBit (8 * c + r.toNat) = true

/-- The number whose set bits are the `i < n` with `P i`. -/
def maskOf (P : Nat → Bool) : Nat → Nat
  | 0 => 0
  | n + 1 => maskOf P n ||| (if P n then 2 ^ n else 0)

/-- The stones of player `p` (`true` is the first player) after the game
record `ms`, as a set of bits: bit `8 * c + r` for every cell (column `c`,
row `r`) of the `rows × cols` grid that `p` owns. -/
def stones (rows cols : Nat) (ms : List Nat) (p : Bool) : Nat :=
  maskOf (fun i => decide (i / 8 < cols) && decide (i % 8 < rows)
    && (owner ms (i / 8) (i % 8) == some p)) 63

/-- The turn bit 63, when it is on. -/
def turnBit (t : Bool) : Nat := if t then 2 ^ 63 else 0

/-! ## Basic facts about the table -/

theorem Table.find_set_self (t : Table) (b : ConnectBoard) (v : Entry) :
    (t.set b v).find b = some v := by
  induction t with
  | nil => simp [Table.set, Table.find]
  | cons kv rest ih =>
    obtain ⟨k, w⟩ := kv
    by_cases h : k = b
    · simp [Table.set, Table.find, h]
    · simp [Table.set, Table.find, h, ih]

theorem Table.find_set_other (t : Table) (b b1 : ConnectBoard) (v : Entry) (h : b1 ≠ b) :
    (t.set b v).find b1 = t.find b1 := by
  induction t with
  | nil =>
    have h2 : ¬ b = b1 := fun e => h e.symm
    simp [Table.set, Table.find, h2]
  | cons kv rest ih =>
    obtain ⟨k, w⟩ := kv
    by_cases hk : k = b
    · subst hk
      have h2 : ¬ k = b1 := fun e => h e.symm
      simp [Table.set, Table.find, h2]
    · by_cases hk1 : k = b1
      · subst hk1
        simp [Table.set, Table.find, hk]
      · simp [Table.set, Table.find, hk, hk1, ih]

theorem Table.index_find (t : Table) (b : ConnectBoard) :
    (t.index b).2.find b = some (t.index b).1 := by
  unfold Table.index
  cases h : t.find b with
  | some e => simpa using h
  | none => simpa using Table.find_set_self t b (0, some 0)

/-! ## Termination of the searches -/

theorem FullMiniMax.eff_loop_total (rows cols chain : Nat)
    (recur : Table → ConnectBoard → Option (Int × Table))
    (hrec : ∀ t b, ∃ r, recur t b = some r) (board : ConnectBoard) (max : Bool) (depth : Nat) :
    ∀ (l : List Nat) (t : Table) (bs : Int) (bm : Option Nat),
      ∃ r, FullMiniMax.eff_loop rows cols chain recur board max depth l t bs bm = some r := by
  intro l
  induction l with
  | nil => intro t bs bm; exact ⟨_, rfl⟩
  | cons col rest ih =>
    intro t bs bm
    simp only [FullMiniMax.eff_loop]
    split
    · exact ih _ _ _
    · split
      · exact ⟨_, rfl⟩
      · obtain ⟨⟨cur, t1⟩, hr⟩ := hrec t (board.make_neighbor col)
        rw [hr]
        simp only []
        split <;> exact ih _ _ _

theorem FullMiniMax.efficient_traverse_total (rows cols chain : Nat) :
    ∀ (fuel : Nat) (t : Table) (b : ConnectBoard) (max : Bool) (d : Nat),
      d ≤ rows * cols → rows * cols - d < fuel →
      ∃ r, FullMiniMax.efficient_traverse rows cols chain fuel t b max d = some r := by
  intro fuel
  induction fuel with
  | zero => intro t b max d _ h; omega
  | succ fuel ih =>
    intro t b max d hd hf
    simp only [FullMiniMax.efficient_traverse]
    cases hfind : t.find b with
    | some e => exact ⟨_, rfl⟩
    | none =>
      simp only []
      by_cases hN : d = rows * cols
      · simp [hN]
      · simp only [hN, if_false]
        obtain ⟨⟨t1, bs, bm⟩, hl⟩ := FullMiniMax.eff_loop_total rows cols chain
          (fun t b => FullMiniMax.efficient_traverse rows cols chain fuel t b (!max) (d + 1))
          (fun t b => ih t b (!max) (d + 1) (by omega) (by omega)) b max d
          (List.range cols) t (if max then INT_MIN else INT_MAX) none
        rw [hl]
        exact ⟨_, rfl⟩

theorem FullMiniMax.plain_loop_total (rows : Nat)
    (recur : Table → ConnectBoard → Option (Int × Table))
    (hrec : ∀ t b, ∃ r, recur t b = some r) (board : ConnectBoard) (max : Bool) :
    ∀ (l : List Nat) (t : Table) (bs : Int) (bm : Option Nat),
      ∃ r, FullMiniMax.plain_loop rows recur board max l t bs bm = some r := by
  intro l
  induction l with
  | nil => intro t bs bm; exact ⟨_, rfl⟩
  | cons col rest ih =>
    intro t bs bm
    simp only [FullMiniMax.plain_loop]
    split
    · exact ih _ _ _
    · obtain ⟨⟨cur, t1⟩, hr⟩ := hrec t (board.make_neighbor col)
      rw [hr]
      simp only []
      split <;> exact ih _ _ _

theorem FullMiniMax.traverse_total (rows cols chain : Nat) :
    ∀ (fuel : Nat) (t : Table) (b : ConnectBoard) (max : Bool) (d : Nat),
      d ≤ rows * cols → rows * cols - d < fuel →
      ∃ r, FullMiniMax.traverse rows cols chain fuel t b max d = some r := by
  intro fuel
  induction fuel with
  | zero => intro t b max d _ h; omega
  | succ fuel ih =>
    intro t b max d hd hf
    simp only [FullMiniMax.traverse]
    cases hfind : t.find b with
    | some e => exact ⟨_, rfl⟩
    | none =>
      simp only []
      by_cases hg : b.game_over chain = true
      · simp [hg]
      · simp only [hg]
        by_cases hN : d = rows * cols
        · simp [hN]
        · simp only [hN, if_false]
          obtain ⟨⟨t1, bs, bm⟩, hl⟩ := FullMiniMax.plain_loop_total rows
            (fun t b => FullMiniMax.traverse rows cols chain fuel t b (!max) (d + 1))
            (fun t b => ih t b (!max) (d + 1) (by omega) (by omega)) b max
            (List.range cols) t (if max then INT_MIN else INT_MAX) none
          rw [hl]
          exact ⟨_, rfl⟩

theorem FullMiniMax.search_total (e : FullMiniMax) (b : ConnectBoard) :
    ∃ r, e.search b = some r := by
  unfold FullMiniMax.search
  split
  · exact FullMiniMax.efficient_traverse_total _ _ _ _ _ _ _ _ (Nat.zero_le _) (by omega)
  · exact FullMiniMax.traverse_total _ _ _ _ _ _ _ _ (Nat.zero_le _) (by omega)

/-! ## Queries of the exhaustive engine -/

/-- C2: for every engine (either strategy, any table contents) and every board,
the query returns, and a second query on the same board returns the identical
(score, column) pair and leaves the table exactly as the first call left it. -/
theorem C2_query_idempotent (e : FullMiniMax) (b : ConnectBoard) :
    ∃ r e1, e.call b = some (r, e1) ∧ e1.call b = some (r, e1) := by
  unfold FullMiniMax.call
  cases hfind : e.table.find b with
  | some v =>
    refine ⟨v, e, rfl, ?_⟩
    simp [hfind]
  | none =>
    obtain ⟨⟨s, t1⟩, hs⟩ := FullMiniMax.search_total e b
    refine ⟨(t1.index b).1, { e with table := (t1.index b).2 }, ?_, ?_⟩
    · simp [hs]
    · simp [Table.index_find]

/-- C3: on a board with 1 row and 3 columns and a connect-3 target, a fresh
exhaustive engine queried on the empty board returns score 0, with either
strategy. -/
theorem C3_draw_on_1x3 :
    scoreOf ((FullMiniMax.fresh 1 3 3 true).call ConnectBoard.empty) = some 0
    ∧ scoreOf ((FullMiniMax.fresh 1 3 3 false).call ConnectBoard.empty) = some 0 := by
  decide!

/-! ### Immediate wins -/

/-- C5 (failing input): on the 1 × 3 board with target 3, the root after the
moves 0, 1 is legal, not won, and its only continuation fills the board
without a win; a fresh engine returns `INT_MAX` instead of 0, with either
strategy. -/
theorem C5_full_board_not_zero :
    legal 1 3 [0, 1] = true ∧ (play [0, 1]).game_over 3 = false
    ∧ (play [0, 1]).is_invalid_move 0 1 = true ∧ (play [0, 1]).is_invalid_move 1 1 = true
    ∧ (play [0, 1]).is_invalid_move 2 1 = false
    ∧ ((play [0, 1]).make_neighbor 2).game_over 3 = false
    ∧ ((play [0, 1]).make_neighbor 2).is_full 3 1 = true
    ∧ scoreOf ((FullMiniMax.fresh 1 3 3 true).call (play [0, 1])) = some 2147483647
    ∧ scoreOf ((FullMiniMax.fresh 1 3 3 false).call (play [0, 1])) = some 2147483647 := by
  decide!

/-- C6 (failing input): on the 1 × 4 board with target 3, the root after the
moves 0, 1 is legal, neither won nor full; a fresh engine returns the score
`INT_MIN` and a column that was never assigned, with either strategy. -/
theorem C6_column_never_assigned :
    legal 1 4 [0, 1] = true ∧ (play [0, 1]).game_over 3 = false
    ∧ (play [0, 1]).is_full 4 1 = false
    ∧ ((FullMiniMax.fresh 1 4 3 true).call (play [0, 1])).map (fun x => x.1)
        = some (-2147483648, none)
    ∧ ((FullMiniMax.fresh 1 4 3 false).call (play [0, 1])).map (fun x => x.1)
        = some (-2147483648, none) := by
  decide!

/-! ### Win detection -/

/-- C8 (failing input): on the 7 × 7 board, after seven moves into column 5 and
seven into column 6 (legal, no earlier position won), `game_over(3)` is true
although neither player owns 3 consecutive cells on a line; after seven moves
into column 5, seven into column 4, one into column 0 and seven into column 6,
`game_over(4)` is true although neither player owns 4 consecutive cells. -/
theorem C8_game_over_without_line :
    legal 7 7 [5, 5, 5, 5, 5, 5, 5, 6, 6, 6, 6, 6, 6, 6] = true
    ∧ ((List.range 14).all fun n =>
        !(play ([5, 5, 5, 5, 5, 5, 5, 6, 6, 6, 6, 6, 6, 6].take n)).game_over 3) = true
    ∧ (play [5, 5, 5, 5, 5, 5, 5, 6, 6, 6, 6, 6, 6, 6]).game_over 3 = true
    ∧ hasLine 7 7 3 [5, 5, 5, 5, 5, 5, 5, 6, 6, 6, 6, 6, 6, 6]
        (lastMover [5, 5, 5, 5, 5, 5, 5, 6, 6, 6, 6, 6, 6, 6]) = false
    ∧ legal 7 7 [5, 5, 5, 5, 5, 5, 5, 4, 4, 4, 4, 4, 4, 4, 0, 6, 6, 6, 6, 6, 6, 6] = true
    ∧ ((List.range 22).all fun n =>
        !(play ([5, 5, 5, 5, 5, 5, 5, 4, 4, 4, 4, 4, 4, 4, 0, 6, 6, 6, 6, 6, 6, 6].take n)).game_over
          4) = true
    ∧ (play [5, 5, 5, 5, 5, 5, 5, 4, 4, 4, 4, 4, 4, 4, 0, 6, 6, 6, 6, 6, 6, 6]).game_over 4 = true
    ∧ hasLine 7 7 4 [5, 5, 5, 5, 5, 5, 5, 4, 4, 4, 4, 4, 4, 4, 0, 6, 6, 6, 6, 6, 6, 6]
        (lastMover [5, 5, 5, 5, 5, 5, 5, 4, 4, 4, 4, 4, 4, 4, 0, 6, 6, 6, 6, 6, 6, 6]) = false := by
  decide!

/-! ### `make_neighbor` and `make_move` -/

/-- C13: for every board and column, `make_neighbor(c)` returns a board equal
under `operator==` (and equal in both registers) to the result of `make_move(c)`
on a copy; the receiver is an argument that the function cannot change. -/
theorem C13_make_neighbor_eq_make_move (b : ConnectBoard) (c : Nat) :
    ConnectBoard.beq (b.make_neighbor c) (b.make_move c) = true
    ∧ b.make_neighbor c = b.make_move c := by
  simp [ConnectBoard.beq, ConnectBoard.make_neighbor, ConnectBoard.make_move]

/-! ### Heuristic engine -/

/-- C15 (failing input): rows 4, cols 3, target 3, `max_depth` 6, root after
the moves 2, 0, 0, 0, 0 (legal, neither won nor full): the engine returns 0
while the depth-limited minimax without pruning and table is worth 500 (tests
in the order of the code) or -500 (winning child looked for first). -/
theorem C15_pruning_changes_value :
    legal 4 3 [2, 0, 0, 0, 0] = true ∧ (play [2, 0, 0, 0, 0]).game_over 3 = false
    ∧ (play [2, 0, 0, 0, 0]).is_full 3 4 = false
    ∧ hscoreOf ((HeuristicMiniMax.fresh 4 3 3 6).call (play [2, 0, 0, 0, 0])) = some 0
    ∧ plain_minimax 4 3 3 6 (HeuristicMiniMax.boundary 4 3) 6 (play [2, 0, 0, 0, 0]) true 1 = 500
    ∧ plain_minimax_win_first 4 3 3 6 (HeuristicMiniMax.boundary 4 3) 6 (play [2, 0, 0, 0, 0])
        true 1 = -500 := by
  decide!

/-- C16 (failing input): rows 1, cols 2, target 3, `max_depth` 1, root after
the move 0 (legal, neither won nor full): the engine returns column 0, which
is full. -/
theorem C16_column_not_playable :
    legal 1 2 [0] = true ∧ (play [0]).game_over 3 = false ∧ (play [0]).is_full 2 1 = false
    ∧ hcolumnOf ((HeuristicMiniMax.fresh 1 2 3 1).call (play [0])) = some (some 0)
    ∧ (play [0]).is_invalid_move 0 1 = true := by
  decide!

/-- C17 (failing input): rows 1, cols 6, target 4: the position after the move
0 has heuristic value -500, its mirror image (after the move 5) has value 0. -/
theorem C17_mirror_changes_magnitude :
    legal 1 6 [0] = true ∧ mirror 6 [0] = [5] ∧ legal 1 6 (mirror 6 [0]) = true
    ∧ HeuristicMiniMax.heuristic 4 (HeuristicMiniMax.boundary 1 6) (play [0]) = -500
    ∧ HeuristicMiniMax.heuristic 4 (HeuristicMiniMax.boundary 1 6) (play (mirror 6 [0])) = 0
    ∧ (HeuristicMiniMax.heuristic 4 (HeuristicMiniMax.boundary 1 6) (play [0])).natAbs
      ≠ (HeuristicMiniMax.heuristic 4 (HeuristicMiniMax.boundary 1 6)
          (play (mirror 6 [0]))).natAbs := by
  decide!

/-- C19 (failing input): on the empty 7 × 7 board (and on the empty 1 × 1
board) bit 63 of the empty-cell mask `~pieces ^ boundary_spaces` is set. -/
theorem C19_bit63_counted_empty :
    (HeuristicMiniMax.empty_spaces (HeuristicMiniMax.boundary 7 7)
        ConnectBoard.empty.pieces).testBit 63 = true
    ∧ (HeuristicMiniMax.empty_spaces (HeuristicMiniMax.boundary 1 1)
        ConnectBoard.empty.pieces).testBit 63 = true
    ∧ emptyCell 7 7 ConnectBoard.empty.pieces 63 = false := by
  decide!

/-- C20 (failing input): rows 3, cols 3, target 3, position after the move 0,
`p` the stone of the first player (bit 0), offset 1: the cells above the stone
are empty, so the specification counts 500, but `count_right_three_chains`
returns 0 because it tests rows 2 and 3 instead of rows 1 and 2. -/
theorem C20_singleton_count_shifted :
    legal 3 3 [0] = true
    ∧ (play [0]).player ^^^ (play [0]).pieces = 1
    ∧ HeuristicMiniMax.count_right_three_chains (HeuristicMiniMax.boundary 3 3)
        ((play [0]).player ^^^ (play [0]).pieces) (play [0]).pieces 1 = 0
    ∧ spec_right_three 3 3 ((play [0]).player ^^^ (play [0]).pieces) (play [0]).pieces 1 = 500 := by
  decide!

/-- C18 (counterexample): for rows 1, cols 6, target 4 and the position after
the move 0, the evaluator does not return the total of the stones in
`player ^ pieces` minus the total of the other stones: it returns -500, the
claimed difference is 500. -/
theorem C18_counterexample :
    HeuristicMiniMax.heuristic 4 (HeuristicMiniMax.boundary 1 6) (play [0])
      ≠ chain_total 4 (HeuristicMiniMax.boundary 1 6) ((play [0]).player ^^^ (play [0]).pieces)
          (play [0]).pieces
        - chain_total 4 (HeuristicMiniMax.boundary 1 6) (play [0]).player (play [0]).pieces := by
  decide!

theorem succ_testBit (h : Nat) : ∀ q : Nat, (∀ j, j < h → q.testBit j = true) →
    q.testBit h = false →
    ∀ j, (q + 1).testBit j = if j < h then false else if j = h then true else q.testBit j := by
  induction h with
  | zero =>
    intro q _ h0 j
    have hq : q % 2 = 0 := by
      have := h0
      simp [Nat.testBit_zero] at this
      omega
    cases j with
    | zero => simp [Nat.testBit_zero]; omega
    | succ j =>
      simp only [Nat.testBit_succ]
      have : (q + 1) / 2 = q / 2 := by omega
      simp [this]
  | succ h ih =>
    intro q hlow hh j
    have hq : q % 2 = 1 := by
      have := hlow 0 (Nat.succ_pos _)
      simpa [Nat.testBit_zero] using this
    have hdiv : (q + 1) / 2 = q / 2 + 1 := by omega
    cases j with
    | zero => simp [Nat.testBit_zero]; omega
    | succ j =>
      have ih2 := ih (q / 2)
        (fun i hi => by rw [Nat.testBit_div_two]; exact hlow (i + 1) (by omega))
        (by rw [Nat.testBit_div_two]; exact hh) j
      rw [Nat.testBit_succ, hdiv, ih2, Nat.testBit_succ]
      simp only [Nat.add_lt_add_iff_right, Nat.add_right_cancel_iff]

theorem add_two_pow_testBit (p k h : Nat) (hlow : ∀ j, j < h → p.testBit (k + j) = true)
    (hh : p.testBit (k + h) = false) (i : Nat) :
    (p + 2 ^ k).testBit i
      = if i < k then p.testBit i else if i < k + h then false
        else if i = k + h then true else p.testBit i := by
  have hp : p + 2 ^ k = 2 ^ k * (p / 2 ^ k + 1) + p % 2 ^ k := by
    have := Nat.div_add_mod p (2 ^ k)
    rw [Nat.mul_add, Nat.mul_one]
    omega
  have hq : ∀ j, (p / 2 ^ k).testBit j = p.testBit (k + j) := by
    intro j
    rw [← Nat.shiftRight_eq_div_pow, Nat.testBit_shiftRight]
  rw [hp, Nat.testBit_mul_pow_two_add _ (Nat.mod_lt _ (Nat.two_pow_pos k))]
  by_cases hik : i < k
  · simp [hik, Nat.testBit_mod_two_pow]
  · simp only [hik, if_false]
    rw [succ_testBit h (p / 2 ^ k) (fun j hj => by rw [hq]; exact hlow j hj)
      (by rw [hq]; exact hh) (i - k)]
    have e1 : (i - k < h) = (i < k + h) := by
      apply propext; omega
    have e2 : (i - k = h) = (i = k + h) := by
      apply propext; omega
    rw [hq]
    have e3 : k + (i - k) = i := by omega
    simp only [e1, e2, e3]

theorem lor_add_two_pow (p k h : Nat) (hlow : ∀ j, j < h → p.testBit (k + j) = true)
    (hh : p.testBit (k + h) = false) :
    p ||| (p + 2 ^ k) = p ||| 2 ^ (k + h) := by
  apply Nat.eq_of_testBit_eq
  intro i
  rw [Nat.testBit_or, Nat.testBit_or, add_two_pow_testBit p k h hlow hh i, Nat.testBit_two_pow]
  by_cases h1 : i < k
  · have : ¬ (k + h = i) := by omega
    simp [h1, this]
  · by_cases h2 : i < k + h
    · have : ¬ (k + h = i) := by omega
      simp [h1, h2, this]
    · by_cases h3 : i = k + h
      · simp [h1, h2, h3]
      · have : ¬ (k + h = i) := fun e => h3 e.symm
        simp [h1, h2, h3, this]

theorem land_two_pow_ne_zero (p k : Nat) : (p &&& 2 ^ k != 0) = p.testBit k := by
  by_cases h : p.testBit k = true
  · rw [h]
    have : (p &&& 2 ^ k).testBit k = true := by
      rw [Nat.testBit_and, h, Nat.testBit_two_pow_self]; rfl
    have hne : p &&& 2 ^ k ≠ 0 := by
      intro e
      rw [e] at this
      simp at this
    simpa using hne
  · have h2 : p.testBit k = false := by simpa using h
    rw [h2]
    have : p &&& 2 ^ k = 0 := by
      apply Nat.eq_of_testBit_eq
      intro i
      rw [Nat.testBit_and, Nat.testBit_two_pow]
      by_cases hi : k = i
      · subst hi; simp [h2]
      · simp [hi]
    simp [this]

theorem shl_one (k : Nat) (hk : k < 64) : shl 1 k = 2 ^ k := by
  unfold shl W
  rw [Nat.one_shiftLeft]
  exact Nat.mod_eq_of_lt (Nat.pow_lt_pow_right (by omega) hk)

theorem Stacked.empty (rows cols : Nat) : Stacked rows cols [] ConnectBoard.empty.pieces := by
  refine ⟨by simp, by simp, ?_⟩
  intro i
  have : ConnectBoard.empty.pieces = 2 ^ 63 := shl_one 63 (by omega)
  rw [this, Nat.testBit_two_pow]
  by_cases h : i = 63
  · simp [h]
  · have h2 : ¬ (63 = i) := fun e => h e.symm
    simp [h, h2]

theorem Stacked.count_zero {rows cols : Nat} {ms : List Nat} {p : Nat}
    (h : Stacked rows cols ms p) (c : Nat) (hc : cols ≤ c) : ms.count c = 0 := by
  apply List.count_eq_zero_of_not_mem
  intro hm
  have := h.1 c hm
  omega

theorem Stacked.lt {rows cols : Nat} {ms : List Nat} {p : Nat}
    (h : Stacked rows cols ms p) (hcols : cols ≤ 7) : p < 2 ^ 64 := by
  apply Nat.lt_pow_two_of_testBit
  intro i hi
  rw [h.2.2 i]
  have h1 : ¬ (i = 63) := by omega
  have h2 : ms.count (i / 8) = 0 := h.count_zero (i / 8) (by omega)
  simp [h1, h2]

theorem Stacked.bit {rows cols : Nat} {ms : List Nat} {p : Nat}
    (h : Stacked rows cols ms p) (hcols : cols ≤ 7) (c r : Nat) (hc : c < cols) (hr : r < 8) :
    p.testBit (8 * c + r) = decide (r < ms.count c) := by
  rw [h.2.2]
  have h1 : ¬ (8 * c + r = 63) := by omega
  have h2 : (8 * c + r) / 8 = c := by omega
  have h3 : (8 * c + r) % 8 = r := by omega
  simp [h1, h2, h3]

theorem Stacked.invalid {rows cols : Nat} {ms : List Nat} {p : Nat}
    (h : Stacked rows cols ms p) (hrows1 : 1 ≤ rows) (hrows : rows ≤ 7) (hcols : cols ≤ 7)
    (pl c : Nat) (hc : c < cols) :
    ConnectBoard.is_invalid_move { player := pl, pieces := p } c rows
      = decide (ms.count c = rows) := by
  unfold ConnectBoard.is_invalid_move
  have e : 8 * c + rows - 1 = 8 * c + (rows - 1) := by omega
  rw [e, shl_one _ (by omega), land_two_pow_ne_zero, h.bit hcols c (rows - 1) hc (by omega)]
  have := h.2.1 c
  by_cases hh : ms.count c = rows
  · simp [hh]; omega
  · simp [hh]; omega

theorem Stacked.stacked_step {rows cols : Nat} {ms : List Nat} {p : Nat}
    (h : Stacked rows cols ms p) (hrows : rows ≤ 7) (hcols : cols ≤ 7)
    (c : Nat) (hc : c < cols) (hlt : ms.count c < rows) :
    p ||| ((p + shl 1 (8 * c)) % W) = p ||| 2 ^ (8 * c + ms.count c)
    ∧ Stacked rows cols (ms ++ [c]) (p ||| 2 ^ (8 * c + ms.count c)) := by
  have hlow : ∀ j, j < ms.count c → p.testBit (8 * c + j) = true := by
    intro j hj
    rw [h.bit hcols c j hc (by omega)]
    simpa using hj
  have hh : p.testBit (8 * c + ms.count c) = false := by
    rw [h.bit hcols c _ hc (by omega)]
    simp
  have hsum : p + 2 ^ (8 * c) < 2 ^ 64 := by
    apply Nat.lt_pow_two_of_testBit
    intro i hi
    rw [add_two_pow_testBit p (8 * c) (ms.count c) hlow hh i]
    have h1 : ¬ (i < 8 * c) := by omega
    have h2 : ¬ (i < 8 * c + ms.count c) := by omega
    have h3 : ¬ (i = 8 * c + ms.count c) := by omega
    simp only [h1, h2, h3, if_false]
    rw [h.2.2 i]
    have h4 : ¬ (i = 63) := by omega
    have h5 : ms.count (i / 8) = 0 := h.count_zero (i / 8) (by omega)
    simp [h4, h5]
  have e1 : p ||| ((p + shl 1 (8 * c)) % W) = p ||| 2 ^ (8 * c + ms.count c) := by
    rw [shl_one _ (by omega)]
    unfold W
    rw [Nat.mod_eq_of_lt hsum]
    exact lor_add_two_pow p (8 * c) (ms.count c) hlow hh
  refine ⟨e1, ?_, ?_, ?_⟩
  · intro x hx
    rcases List.mem_append.1 hx with hx | hx
    · exact h.1 x hx
    · simp at hx; omega
  · intro x
    rw [List.count_append]
    by_cases hxc : x = c
    · subst hxc; simp; omega
    · have : List.count x [c] = 0 := by
        apply List.count_eq_zero_of_not_mem
        simp [hxc]
      have := h.2.1 x
      omega
  · intro i
    rw [Nat.testBit_or, h.2.2 i, Nat.testBit_two_pow, List.count_append]
    by_cases hi : i / 8 = c
    · have hcnt : List.count (i / 8) [c] = 1 := by simp [hi]
      rw [hcnt, hi]
      by_cases h63 : i = 63
      · simp [h63]
      · by_cases hlt2 : i % 8 < ms.count c
        · have : i % 8 < ms.count c + 1 := by omega
          simp [h63, hlt2, this]
        · by_cases heq : i % 8 = ms.count c
          · have e : 8 * c + ms.count c = i := by omega
            have : i % 8 < ms.count c + 1 := by omega
            simp [h63, e, this]
          · have e : ¬ (8 * c + ms.count c = i) := by omega
            have : ¬ (i % 8 < ms.count c + 1) := by omega
            simp [h63, hlt2, e, this]
    · have hcnt : List.count (i / 8) [c] = 0 := by
        apply List.count_eq_zero_of_not_mem
        simp [hi]
      have e : ¬ (8 * c + ms.count c = i) := by
        intro e
        apply hi
        omega
      simp [hcnt, e]

/-! ## Legal play and the shape of reachable positions -/

theorem play_append (ms : List Nat) (c : Nat) : play (ms ++ [c]) = (play ms).make_move c := by
  simp [play, List.foldl_append]

theorem legalFrom_append (rows cols : Nat) (ms ms2 : List Nat) :
    ∀ b, legalFrom rows cols b (ms ++ ms2)
      = (legalFrom rows cols b ms
          && legalFrom rows cols (ms.foldl ConnectBoard.make_move b) ms2) := by
  induction ms with
  | nil => intro b; simp [legalFrom]
  | cons m rest ih =>
    intro b
    simp [legalFrom, ih, Bool.and_assoc]

theorem legal_snoc (rows cols : Nat) (ms : List Nat) (c : Nat) :
    legal rows cols (ms ++ [c]) = true
      ↔ legal rows cols ms = true ∧ c < cols ∧ (play ms).is_invalid_move c rows = false := by
  unfold legal
  rw [legalFrom_append]
  simp [legalFrom, play]

theorem legal_induction (rows cols : Nat) (P : List Nat → Prop) (h0 : P [])
    (hstep : ∀ ms c, legal rows cols ms = true → P ms → c < cols →
      (play ms).is_invalid_move c rows = false → P (ms ++ [c])) :
    ∀ ms, legal rows cols ms = true → P ms := by
  intro ms
  induction ms using List.reverseRecOn with
  | nil => intro _; exact h0
  | append_singleton ms c ih =>
    intro hl
    obtain ⟨h1, h2, h3⟩ := (legal_snoc rows cols ms c).1 hl
    exact hstep ms c h1 (ih h1) h2 h3

theorem legal_stacked (rows cols : Nat) (hrows1 : 1 ≤ rows) (hrows : rows ≤ 7) (hcols : cols ≤ 7) :
    ∀ ms, legal rows cols ms = true → Stacked rows cols ms (play ms).pieces := by
  apply legal_induction
  · exact Stacked.empty rows cols
  · intro ms c _ ih hc hv
    have hinv := ih.invalid hrows1 hrows hcols (play ms).player c hc
    rw [hv] at hinv
    have hlt : ms.count c < rows := by
      have := ih.2.1 c
      have hne : ¬ (ms.count c = rows) := by simpa using hinv.symm
      omega
    have hs := ih.stacked_step hrows hcols c hc hlt
    rw [play_append]
    show Stacked rows cols (ms ++ [c])
      ((play ms).pieces ||| (((play ms).pieces + shl 1 (8 * c)) % W))
    rw [hs.1]
    exact hs.2

theorem legal_count_lt (rows cols : Nat) (hrows1 : 1 ≤ rows) (hrows : rows ≤ 7) (hcols : cols ≤ 7)
    (ms : List Nat) (hl : legal rows cols ms = true) (c : Nat) (hc : c < cols) :
    (play ms).is_invalid_move c rows = decide (ms.count c = rows) :=
  (legal_stacked rows cols hrows1 hrows hcols ms hl).invalid hrows1 hrows hcols _ c hc

/-- C9: for every position reachable by legal moves on a `rows × cols` board
(`1 ≤ rows ≤ 7`, `cols ≤ 7`) and every playable column `c` holding `h` stones,
the bits `8c .. 8c + h - 1` are set and bit `8c + h` is not (it is the lowest
unset bit of the column); `make_move(c)` sets exactly that bit, leaves every
other bit of `pieces` unchanged, and sets `player` to the old `player` XOR the
old `pieces`. -/
theorem C9_make_move_sets_lowest_unset_bit (rows cols : Nat) (hrows1 : 1 ≤ rows)
    (hrows : rows ≤ 7) (hcols : cols ≤ 7) (ms : List Nat) (hl : legal rows cols ms = true)
    (c : Nat) (hc : c < cols) (hv : (play ms).is_invalid_move c rows = false) :
    (∀ r, r < ms.count c → (play ms).pieces.testBit (8 * c + r) = true)
    ∧ (play ms).pieces.testBit (8 * c + ms.count c) = false
    ∧ ms.count c < rows
    ∧ ((play ms).make_move c).pieces = (play ms).pieces ||| 2 ^ (8 * c + ms.count c)
    ∧ ((play ms).make_move c).pieces.testBit (8 * c + ms.count c) = true
    ∧ (∀ i, i ≠ 8 * c + ms.count c →
        ((play ms).make_move c).pieces.testBit i = (play ms).pieces.testBit i)
    ∧ ((play ms).make_move c).player = (play ms).player ^^^ (play ms).pieces := by
  have hst := legal_stacked rows cols hrows1 hrows hcols ms hl
  have hinv := legal_count_lt rows cols hrows1 hrows hcols ms hl c hc
  rw [hv] at hinv
  have hlt : ms.count c < rows := by
    have := hst.2.1 c
    have hne : ¬ (ms.count c = rows) := by simpa using hinv.symm
    omega
  have hs := hst.stacked_step hrows hcols c hc hlt
  have hp : ((play ms).make_move c).pieces = (play ms).pieces ||| 2 ^ (8 * c + ms.count c) :=
    hs.1
  refine ⟨?_, ?_, hlt, hp, ?_, ?_, rfl⟩
  · intro r hr
    rw [hst.bit hcols c r hc (by omega)]
    simpa using hr
  · rw [hst.bit hcols c _ hc (by omega)]
    simp
  · rw [hp, Nat.testBit_or, Nat.testBit_two_pow_self]
    simp
  · intro i hi
    rw [hp, Nat.testBit_or, Nat.testBit_two_pow]
    have : ¬ (8 * c + ms.count c = i) := fun e => hi e.symm
    simp [this]

theorem C9_make_move_sets_lowest_unset_bit_witness :
    (1 ≤ 4 ∧ 4 ≤ 7 ∧ 4 ≤ 7 ∧ legal 4 4 [0, 0, 1] = true ∧ 0 < 4
      ∧ (play [0, 0, 1]).is_invalid_move 0 4 = false)
    ∧ ((∀ r, r < [0, 0, 1].count 0 → (play [0, 0, 1]).pieces.testBit (8 * 0 + r) = true)
    ∧ (play [0, 0, 1]).pieces.testBit (8 * 0 + [0, 0, 1].count 0) = false
    ∧ [0, 0, 1].count 0 < 4
    ∧ ((play [0, 0, 1]).make_move 0).pieces
        = (play [0, 0, 1]).pieces ||| 2 ^ (8 * 0 + [0, 0, 1].count 0)
    ∧ ((play [0, 0, 1]).make_move 0).pieces.testBit (8 * 0 + [0, 0, 1].count 0) = true
    ∧ (∀ i, i ≠ 8 * 0 + [0, 0, 1].count 0 →
        ((play [0, 0, 1]).make_move 0).pieces.testBit i = (play [0, 0, 1]).pieces.testBit i)
    ∧ ((play [0, 0, 1]).make_move 0).player
        = (play [0, 0, 1]).player ^^^ (play [0, 0, 1]).pieces) :=
  ⟨by decide!, C9_make_move_sets_lowest_unset_bit 4 4 (by decide) (by decide) (by decide)
    [0, 0, 1] (by decide!) 0 (by decide) (by decide!)⟩

/-! ## Turn parity -/

theorem is_player_one_eq_testBit (b : ConnectBoard) :
    b.is_player_one = b.player.testBit 63 := by
  unfold ConnectBoard.is_player_one
  rw [shl_one 63 (by omega), land_two_pow_ne_zero]

theorem foldl_make_move_bit63 (ms : List Nat) :
    ∀ b : ConnectBoard, b.pieces.testBit 63 = true →
      (ms.foldl ConnectBoard.make_move b).pieces.testBit 63 = true
      ∧ (ms.foldl ConnectBoard.make_move b).player.testBit 63
          = xor (b.player.testBit 63) (decide (ms.length % 2 = 1)) := by
  induction ms with
  | nil => intro b hb; simp [hb]
  | cons m rest ih =>
    intro b hb
    have hp : (b.make_move m).pieces.testBit 63 = true := by
      simp [ConnectBoard.make_move, Nat.testBit_or, hb]
    have hq : (b.make_move m).player.testBit 63 = !b.player.testBit 63 := by
      simp [ConnectBoard.make_move, Nat.testBit_xor, hb]
    obtain ⟨h1, h2⟩ := ih (b.make_move m) hp
    refine ⟨h1, ?_⟩
    rw [List.foldl_cons, h2, hq, List.length_cons]
    by_cases hpar : rest.length % 2 = 1
    · have : ¬ ((rest.length + 1) % 2 = 1) := by omega
      simp [hpar, this]
    · have : (rest.length + 1) % 2 = 1 := by omega
      simp [hpar, this]

theorem empty_pieces_bit63 : ConnectBoard.empty.pieces.testBit 63 = true := by decide

/-- C11: for every position reached from the empty board by `n` moves,
`is_player_one()` is true iff `n` is odd; it is false on the empty board, and
`is_player_one()` of `make_neighbor(c)` is the negation of the parent's, for
every column `c`. -/
theorem C11_is_player_one_parity (ms : List Nat) :
    (play ms).is_player_one = decide (ms.length % 2 = 1)
    ∧ ConnectBoard.empty.is_player_one = false
    ∧ ∀ c, ((play ms).make_neighbor c).is_player_one = !(play ms).is_player_one := by
  obtain ⟨h1, h2⟩ := foldl_make_move_bit63 ms ConnectBoard.empty empty_pieces_bit63
  have h0 : ConnectBoard.empty.player.testBit 63 = false := by decide
  refine ⟨?_, by decide, ?_⟩
  · rw [is_player_one_eq_testBit]
    show (ms.foldl ConnectBoard.make_move ConnectBoard.empty).player.testBit 63 = _
    rw [h2, h0]
    simp
  · intro c
    rw [is_player_one_eq_testBit, is_player_one_eq_testBit]
    have hp : (play ms).pieces.testBit 63 = true := h1
    simp [ConnectBoard.make_neighbor, Nat.testBit_xor, hp]

/-! ## Full columns and full boards -/

theorem length_eq_sum_count (cols : Nat) (ms : List Nat) (h : ∀ c, c ∈ ms → c < cols) :
    ms.length = ∑ c in Finset.range cols, ms.count c := by
  induction ms with
  | nil => simp
  | cons m rest ih =>
    have hm : m < cols := h m (List.mem_cons_self _ _)
    have ih2 := ih (fun c hc => h c (List.mem_cons_of_mem _ hc))
    have e : ∀ c, (m :: rest).count c = rest.count c + if c = m then 1 else 0 := by
      intro c
      rw [List.count_cons]
      by_cases hcm : c = m
      · subst hcm; simp
      · have : ¬ (m = c) := fun e => hcm e.symm
        simp [hcm, this]
    simp only [e, Finset.sum_add_distrib, List.length_cons]
    rw [Finset.sum_ite_eq' (Finset.range cols) m (fun _ => 1)]
    simp [hm, ih2]

theorem sum_count_eq_iff (rows cols : Nat) (ms : List Nat) (hle : ∀ c, ms.count c ≤ rows) :
    (∑ c in Finset.range cols, ms.count c) = rows * cols
      ↔ ∀ c, c < cols → ms.count c = rows := by
  constructor
  · intro hsum c hc
    by_contra hne
    have hlt : ms.count c < rows := lt_of_le_of_ne (hle c) hne
    have : (∑ c in Finset.range cols, ms.count c) < ∑ _c in Finset.range cols, rows :=
      Finset.sum_lt_sum (fun i _ => hle i) ⟨c, Finset.mem_range.2 hc, hlt⟩
    simp at this
    rw [hsum, Nat.mul_comm] at this
    exact lt_irrefl _ this
  · intro hall
    rw [Finset.sum_congr rfl (fun c hc => hall c (Finset.mem_range.1 hc))]
    simp [Nat.mul_comm]

theorem legal_length_le (rows cols : Nat) (hrows1 : 1 ≤ rows) (hrows : rows ≤ 7)
    (hcols : cols ≤ 7) (ms : List Nat) (hl : legal rows cols ms = true) :
    ms.length ≤ rows * cols := by
  have hst := legal_stacked rows cols hrows1 hrows hcols ms hl
  rw [length_eq_sum_count cols ms hst.1]
  have : (∑ c in Finset.range cols, ms.count c) ≤ ∑ _c in Finset.range cols, rows :=
    Finset.sum_le_sum (fun i _ => hst.2.1 i)
  simpa [Nat.mul_comm] using this

theorem legal_full_iff (rows cols : Nat) (hrows1 : 1 ≤ rows) (hrows : rows ≤ 7)
    (hcols : cols ≤ 7) (ms : List Nat) (hl : legal rows cols ms = true) :
    ms.length = rows * cols ↔ ∀ c, c < cols → (play ms).is_invalid_move c rows = true := by
  have hst := legal_stacked rows cols hrows1 hrows hcols ms hl
  rw [length_eq_sum_count cols ms hst.1, sum_count_eq_iff rows cols ms hst.2.1]
  constructor
  · intro h c hc
    rw [legal_count_lt rows cols hrows1 hrows hcols ms hl c hc]
    simpa using h c hc
  · intro h c hc
    have := h c hc
    rw [legal_count_lt rows cols hrows1 hrows hcols ms hl c hc] at this
    simpa using this

/-- C12: for every position reachable by legal moves on a `rows × cols` board
(`rows, cols` in `1..7`), `is_invalid_move(c, rows)` is true exactly when
column `c` holds `rows` stones, and `is_full(cols, rows)` is true exactly when
no column `c < cols` is playable, i.e. when all `rows * cols` cells are
occupied. -/
theorem C12_invalid_and_full (rows cols : Nat) (hrows1 : 1 ≤ rows) (hrows : rows ≤ 7)
    (_hcols1 : 1 ≤ cols) (hcols : cols ≤ 7) (ms : List Nat) (hl : legal rows cols ms = true) :
    (∀ c, c < cols → ((play ms).is_invalid_move c rows = true ↔ ms.count c = rows))
    ∧ ((play ms).is_full cols rows = true
        ↔ ∀ c, c < cols → (play ms).is_invalid_move c rows = true)
    ∧ ((play ms).is_full cols rows = true ↔ ms.length = rows * cols) := by
  have hfull : (play ms).is_full cols rows = true
      ↔ ∀ c, c < cols → (play ms).is_invalid_move c rows = true := by
    simp [ConnectBoard.is_full, List.all_eq_true]
  refine ⟨?_, hfull, ?_⟩
  · intro c hc
    rw [legal_count_lt rows cols hrows1 hrows hcols ms hl c hc]
    simp
  · rw [hfull, legal_full_iff rows cols hrows1 hrows hcols ms hl]

theorem C12_invalid_and_full_witness :
    (1 ≤ 2 ∧ 2 ≤ 7 ∧ 1 ≤ 2 ∧ 2 ≤ 7 ∧ legal 2 2 [0, 0, 1, 1] = true)
    ∧ ((∀ c, c < 2 → ((play [0, 0, 1, 1]).is_invalid_move c 2 = true
          ↔ [0, 0, 1, 1].count c = 2))
      ∧ ((play [0, 0, 1, 1]).is_full 2 2 = true
          ↔ ∀ c, c < 2 → (play [0, 0, 1, 1]).is_invalid_move c 2 = true)
      ∧ ((play [0, 0, 1, 1]).is_full 2 2 = true ↔ [0, 0, 1, 1].length = 2 * 2)) :=
  ⟨by decide!, C12_invalid_and_full 2 2 (by decide) (by decide) (by decide) (by decide)
    [0, 0, 1, 1] (by decide!)⟩

/-! ## Ownership of stones -/

theorem ownerFrom_append (ms : List Nat) (x c : Nat) :
    ∀ r j, ownerFrom (ms ++ [x]) c r j
      = match ownerFrom ms c r j with
        | some o => some o
        | none => if x = c ∧ r = ms.count c then some ((j + ms.length) % 2 == 0) else none := by
  induction ms with
  | nil =>
    intro r j
    cases r with
    | zero => by_cases h : x = c <;> simp [ownerFrom, h]
    | succ r1 => by_cases h : x = c <;> simp [ownerFrom, h]
  | cons m rest ih =>
    intro r j
    have hlen : j + (m :: rest).length = (j + 1) + rest.length := by
      simp only [List.length_cons]; omega
    rw [hlen]
    by_cases hm : m = c
    · subst hm
      cases r with
      | zero => simp [ownerFrom]
      | succ r1 =>
        rw [List.count_cons_self]
        simp only [List.cons_append, ownerFrom, if_true, Nat.add_right_cancel_iff]
        exact ih r1 (j + 1)
    · rw [List.count_cons_of_ne (fun e => hm e.symm)]
      simp only [List.cons_append, ownerFrom, hm, if_false]
      exact ih r (j + 1)

theorem ownerFrom_some_lt (ms : List Nat) (c : Nat) :
    ∀ r j o, ownerFrom ms c r j = some o → r < ms.count c := by
  induction ms with
  | nil => intro r j o h; simp [ownerFrom] at h
  | cons m rest ih =>
    intro r j o h
    by_cases hm : m = c
    · cases r with
      | zero => simp [hm]
      | succ r1 =>
        simp only [ownerFrom, hm, if_true] at h
        have := ih r1 (j + 1) o h
        simp [hm]
        omega
    · simp only [ownerFrom, hm, if_false] at h
      have := ih r (j + 1) o h
      have hmc : ¬ ((m == c) = true) := by simpa using hm
      simp [List.count_cons, hmc]
      exact this

theorem owner_append (ms : List Nat) (x c r : Nat) :
    owner (ms ++ [x]) c r
      = match owner ms c r with
        | some o => some o
        | none => if x = c ∧ r = ms.count c then some (lastMover (ms ++ [x])) else none := by
  unfold owner
  rw [ownerFrom_append]
  have e : ((0 + ms.length) % 2 == 0) = lastMover (ms ++ [x]) := by
    unfold lastMover
    rw [List.length_append, List.length_singleton, Nat.zero_add]
    by_cases h : ms.length % 2 = 0
    · have : (ms.length + 1) % 2 = 1 := by omega
      simp [h, this]
    · have : ¬ ((ms.length + 1) % 2 = 1) := by omega
      simp [h, this]
  rw [e]

theorem lastMover_append (ms : List Nat) (x : Nat) :
    lastMover (ms ++ [x]) = !lastMover ms := by
  unfold lastMover
  rw [List.length_append, List.length_singleton]
  by_cases h : ms.length % 2 = 1
  · have : ¬ ((ms.length + 1) % 2 = 1) := by omega
    simp [h, this]
  · have : (ms.length + 1) % 2 = 1 := by omega
    simp [h, this]

theorem owner_append_same (ms : List Nat) (x c r : Nat) (p : Bool)
    (hp : p = lastMover ms) :
    owner (ms ++ [x]) c r = some p ↔ owner ms c r = some p := by
  rw [owner_append]
  cases h : owner ms c r with
  | some o => simp
  | none =>
    simp only []
    by_cases hx : x = c ∧ r = ms.count c
    · simp only [hx, and_self, if_true, lastMover_append, hp]
      cases lastMover ms <;> simp
    · simp [hx]

theorem owner_append_new (ms : List Nat) (x c r : Nat) (p : Bool)
    (hp : p = !lastMover ms) :
    owner (ms ++ [x]) c r = some p
      ↔ owner ms c r = some p ∨ (x = c ∧ r = ms.count c) := by
  rw [owner_append]
  cases h : owner ms c r with
  | some o =>
    simp only []
    constructor
    · intro e; exact Or.inl e
    · rintro (e | ⟨_, e2⟩)
      · exact e
      · have := ownerFrom_some_lt ms c r 0 o h
        omega
  | none =>
    simp only []
    by_cases hx : x = c ∧ r = ms.count c
    · simp [hx, lastMover_append, hp]
    · simp [hx]

/-- The registers after a legal game record, bit by bit (all bits but bit 63):
`player ^ pieces` holds the stones of the player who moved last, `player` the
stones of the other player. -/
theorem legal_owner_bits (rows cols : Nat) (hrows1 : 1 ≤ rows) (hrows : rows ≤ 7)
    (hcols : cols ≤ 7) :
    ∀ ms, legal rows cols ms = true → ∀ i, i ≠ 63 →
      ((((play ms).player ^^^ (play ms).pieces).testBit i = true
          ↔ ∃ c r, i = 8 * c + r ∧ owner ms c r = some (lastMover ms))
        ∧ ((play ms).player.testBit i = true
          ↔ ∃ c r, i = 8 * c + r ∧ owner ms c r = some (!lastMover ms))) := by
  apply legal_induction
  · intro i hi
    have h1 : (play []).player = 0 := rfl
    have h2 : (play []).pieces = 2 ^ 63 := shl_one 63 (by omega)
    have h3 : ¬ (63 = i) := fun e => hi e.symm
    rw [h1, h2]
    constructor
    · rw [Nat.zero_xor, Nat.testBit_two_pow]
      simp [h3, owner, ownerFrom]
    · simp [owner, ownerFrom]
  · intro ms x hl ih hx hv i hi
    have hst := legal_stacked rows cols hrows1 hrows hcols ms hl
    have hinv := legal_count_lt rows cols hrows1 hrows hcols ms hl x hx
    rw [hv] at hinv
    have hlt : ms.count x < rows := by
      have := hst.2.1 x
      have hne : ¬ (ms.count x = rows) := by simpa using hinv.symm
      omega
    have hs := hst.stacked_step hrows hcols x hx hlt
    have hpc : (play (ms ++ [x])).pieces = (play ms).pieces ||| 2 ^ (8 * x + ms.count x) := by
      rw [play_append]; exact hs.1
    have hpl : (play (ms ++ [x])).player = (play ms).player ^^^ (play ms).pieces := by
      rw [play_append]; rfl
    obtain ⟨iha, ihb⟩ := ih i hi
    have hcell : ∀ c r o, owner ms c r = some o → r < 8 ∧ r < ms.count c := by
      intro c r o ho
      have h1 := ownerFrom_some_lt ms c r 0 o ho
      have h2 := hst.2.1 c
      omega
    constructor
    · rw [hpl, hpc, Nat.testBit_xor, Nat.testBit_xor, Nat.testBit_or, Nat.testBit_two_pow]
      by_cases he : 8 * x + ms.count x = i
      · have hpcf : (play ms).pieces.testBit i = false := by
          rw [← he, hst.bit hcols x _ hx (by omega)]
          simp
        have hplf : (play ms).player.testBit i = false := by
          by_contra hne
          have ht : (play ms).player.testBit i = true := by simpa using hne
          obtain ⟨c, r, hcr, ho⟩ := ihb.1 ht
          obtain ⟨h8, hcnt⟩ := hcell c r _ ho
          have hc : c = x := by omega
          have hr : r = ms.count x := by omega
          subst hc
          omega
        constructor
        · intro _
          refine ⟨x, ms.count x, he.symm, ?_⟩
          rw [owner_append_new ms x x _ _ (lastMover_append ms x)]
          exact Or.inr ⟨rfl, rfl⟩
        · intro _
          simp [hpcf, hplf, he]
      · have hxor : (xor (xor ((play ms).player.testBit i) ((play ms).pieces.testBit i))
            ((play ms).pieces.testBit i || decide (8 * x + ms.count x = i)))
            = (play ms).player.testBit i := by
          simp only [he, decide_False, Bool.or_false]
          cases (play ms).player.testBit i <;> cases (play ms).pieces.testBit i <;> rfl
        rw [hxor, ihb]
        constructor
        · rintro ⟨c, r, hcr, ho⟩
          refine ⟨c, r, hcr, ?_⟩
          exact (owner_append_new ms x c r _ (lastMover_append ms x)).2
            (Or.inl (by rw [lastMover_append]; exact ho))
        · rintro ⟨c, r, hcr, ho⟩
          rcases (owner_append_new ms x c r _ (lastMover_append ms x)).1 ho with ho | ⟨hc, hr⟩
          · exact ⟨c, r, hcr, by rw [lastMover_append] at ho; exact ho⟩
          · exfalso
            apply he
            rw [hcr, hr, hc]
    · rw [hpl, iha]
      have hp : (!lastMover (ms ++ [x])) = lastMover ms := by
        rw [lastMover_append]; simp
      rw [hp]
      constructor
      · rintro ⟨c, r, hcr, ho⟩
        exact ⟨c, r, hcr, (owner_append_same ms x c r _ rfl).2 ho⟩
      · rintro ⟨c, r, hcr, ho⟩
        exact ⟨c, r, hcr, (owner_append_same ms x c r _ rfl).1 ho⟩

/-- C10 (counterexample): after the two legal moves 0, 1 bit 63 of
`player ^ pieces` is set, and bit 63 is not the cell bit of any stone: the set
of all 64 bits of `player ^ pieces` is not the set of the last mover's cells. -/
theorem C10_counterexample :
    legal 1 2 [0, 1] = true ∧ 1 ≤ [0, 1].length
    ∧ ¬ (∀ i, ((play [0, 1]).player ^^^ (play [0, 1]).pieces).testBit i = true
          ↔ ∃ c r, i = 8 * c + r ∧ owner [0, 1] c r = some (lastMover [0, 1])) := by
  refine ⟨by decide!, by decide, ?_⟩
  intro h
  obtain ⟨c, r, hcr, ho⟩ := (h 63).1 (by decide!)
  have h1 := ownerFrom_some_lt [0, 1] c r 0 _ ho
  have h2 : List.count c [0, 1] ≤ [0, 1].length := List.count_le_length _ _
  have h3 : [0, 1].length = 2 := rfl
  omega

/-- C10 (amended): for every position reached from the empty board by legal
moves (`n ≥ 1` of them for a last mover to exist), the bits other than bit 63
set in `player ^ pieces` are exactly the cell bits `8c + r` of the stones of
the player who made move `n`; bit 63 of `player ^ pieces` is set iff `n` is
even. -/
theorem C10_mover_stones_below_bit63 (rows cols : Nat) (hrows1 : 1 ≤ rows) (hrows : rows ≤ 7)
    (hcols : cols ≤ 7) (ms : List Nat) (hl : legal rows cols ms = true) :
    (∀ i, i ≠ 63 →
      (((play ms).player ^^^ (play ms).pieces).testBit i = true
        ↔ ∃ c r, i = 8 * c + r ∧ owner ms c r = some (lastMover ms)))
    ∧ ((play ms).player ^^^ (play ms).pieces).testBit 63 = decide (ms.length % 2 = 0) := by
  refine ⟨fun i hi => (legal_owner_bits rows cols hrows1 hrows hcols ms hl i hi).1, ?_⟩
  obtain ⟨h1, h2⟩ := foldl_make_move_bit63 ms ConnectBoard.empty empty_pieces_bit63
  have h0 : ConnectBoard.empty.player.testBit 63 = false := by decide
  have hp : (play ms).pieces.testBit 63 = true := h1
  have hq : (play ms).player.testBit 63 = xor false (decide (ms.length % 2 = 1)) := by
    rw [← h0]; exact h2
  rw [Nat.testBit_xor, hp, hq]
  by_cases hpar : ms.length % 2 = 1
  · have : ¬ (ms.length % 2 = 0) := by omega
    simp [hpar, this]
  · have : ms.length % 2 = 0 := by omega
    simp [hpar, this]

theorem C10_mover_stones_below_bit63_witness :
    (1 ≤ 2 ∧ 2 ≤ 7 ∧ 2 ≤ 7 ∧ legal 2 2 [0, 1, 0] = true)
    ∧ ((∀ i, i ≠ 63 →
        (((play [0, 1, 0]).player ^^^ (play [0, 1, 0]).pieces).testBit i = true
          ↔ ∃ c r, i = 8 * c + r ∧ owner [0, 1, 0] c r = some (lastMover [0, 1, 0])))
      ∧ ((play [0, 1, 0]).player ^^^ (play [0, 1, 0]).pieces).testBit 63
          = decide ([0, 1, 0].length % 2 = 0)) :=
  ⟨by decide!, C10_mover_stones_below_bit63 2 2 (by decide) (by decide) (by decide) [0, 1, 0]
    (by decide!)⟩

/-! ## Reachable positions and their depth -/

theorem Good.zero (rows cols : Nat) : Good rows cols 0 ConnectBoard.empty :=
  ⟨[], rfl, rfl, rfl⟩

theorem Good.good_step {rows cols d : Nat} {b : ConnectBoard} (h : Good rows cols d b) (c : Nat)
    (hc : c < cols) (hv : b.is_invalid_move c rows = false) :
    Good rows cols (d + 1) (b.make_neighbor c) := by
  obtain ⟨ms, hl, hp, hlen⟩ := h
  refine ⟨ms ++ [c], ?_, ?_, ?_⟩
  · rw [legal_snoc]
    exact ⟨hl, hc, by rw [hp]; exact hv⟩
  · rw [play_append, hp]
    rfl
  · simp [hlen]

theorem Stacked.count_unique {rows cols : Nat} {ms ms2 : List Nat} {p : Nat}
    (h1 : Stacked rows cols ms p) (h2 : Stacked rows cols ms2 p) (hrows : rows ≤ 7)
    (hcols : cols ≤ 7) (c : Nat) (hc : c < cols) : ms.count c = ms2.count c := by
  have a1 := h1.2.1 c
  have a2 := h2.2.1 c
  rcases Nat.lt_trichotomy (ms.count c) (ms2.count c) with hlt | heq | hgt
  · exfalso
    have e1 := h1.bit hcols c (ms.count c) hc (by omega)
    have e2 := h2.bit hcols c (ms.count c) hc (by omega)
    rw [e1] at e2
    simp at e2
    omega
  · exact heq
  · exfalso
    have e1 := h1.bit hcols c (ms2.count c) hc (by omega)
    have e2 := h2.bit hcols c (ms2.count c) hc (by omega)
    rw [e1] at e2
    simp at e2
    omega

theorem Good.depth_unique {rows cols d d2 : Nat} {b : ConnectBoard} (hrows1 : 1 ≤ rows)
    (hrows : rows ≤ 7) (hcols : cols ≤ 7) (h : Good rows cols d b) (h2 : Good rows cols d2 b) :
    d = d2 := by
  obtain ⟨ms, hl, hp, hlen⟩ := h
  obtain ⟨ms2, hl2, hp2, hlen2⟩ := h2
  have s1 := legal_stacked rows cols hrows1 hrows hcols ms hl
  have s2 := legal_stacked rows cols hrows1 hrows hcols ms2 hl2
  rw [hp] at s1
  rw [hp2] at s2
  rw [← hlen, ← hlen2, length_eq_sum_count cols ms s1.1, length_eq_sum_count cols ms2 s2.1]
  exact Finset.sum_congr rfl
    (fun c hc => s1.count_unique s2 hrows hcols c (Finset.mem_range.1 hc))

theorem Good.le {rows cols d : Nat} {b : ConnectBoard} (hrows1 : 1 ≤ rows)
    (hrows : rows ≤ 7) (hcols : cols ≤ 7) (h : Good rows cols d b) : d ≤ rows * cols := by
  obtain ⟨ms, hl, _, hlen⟩ := h
  rw [← hlen]
  exact legal_length_le rows cols hrows1 hrows hcols ms hl

theorem Good.full {rows cols d : Nat} {b : ConnectBoard} (hrows1 : 1 ≤ rows)
    (hrows : rows ≤ 7) (hcols : cols ≤ 7) (h : Good rows cols d b) (hd : d = rows * cols)
    (c : Nat) (hc : c < cols) : b.is_invalid_move c rows = true := by
  obtain ⟨ms, hl, hp, hlen⟩ := h
  rw [← hp]
  exact (legal_full_iff rows cols hrows1 hrows hcols ms hl).1 (by omega) c hc

theorem Good.not_full {rows cols d : Nat} {b : ConnectBoard} (hrows1 : 1 ≤ rows)
    (hrows : rows ≤ 7) (hcols : cols ≤ 7) (h : Good rows cols d b) (hd : d ≠ rows * cols) :
    ∃ c, c < cols ∧ b.is_invalid_move c rows = false := by
  obtain ⟨ms, hl, hp, hlen⟩ := h
  by_contra hne
  apply hd
  rw [← hlen]
  apply (legal_full_iff rows cols hrows1 hrows hcols ms hl).2
  intro c hc
  rw [hp]
  by_contra hf
  exact hne ⟨c, hc, by simpa using hf⟩

theorem roleAt_succ (d : Nat) : roleAt (d + 1) = !roleAt d := by
  unfold roleAt
  by_cases h : d % 2 = 0
  · have : ¬ ((d + 1) % 2 = 0) := by omega
    simp [h, this]
  · have : (d + 1) % 2 = 0 := by omega
    simp [h, this]

theorem CanForce.playable {rows cols chain : Nat} {p turn : Bool} {b : ConnectBoard}
    (h : CanForce rows cols chain p turn b) :
    ∃ c, c < cols ∧ b.is_invalid_move c rows = false := by
  cases h with
  | win_now c _ hc hv _ => exact ⟨c, hc, hv⟩
  | own_move c _ hc hv _ _ => exact ⟨c, hc, hv⟩
  | any_reply _ hex _ _ => exact hex

/-! ## The column loops compute a maximum in the eyes of the side to move -/

theorem compare_rel (t : Bool) (a b : Int) : compare_fn t a b = decide (rel t b < rel t a) := by
  cases t <;> simp [compare_fn, rel]

theorem rel_sentinel_neg (t : Bool) : rel t (sentinel t) < 0 := by
  cases t <;> simp [rel, sentinel, INT_MIN, INT_MAX]

theorem rel_not (t : Bool) (s : Int) : rel (!t) s = -rel t s := by
  cases t <;> simp [rel]

theorem rel_update (t : Bool) (cur bs : Int) :
    (0 < rel t (if compare_fn t cur bs = true then cur else bs)
        ↔ (0 < rel t bs ∨ 0 < rel t cur))
    ∧ (rel t (if compare_fn t cur bs = true then cur else bs) < 0
        ↔ (rel t bs < 0 ∧ rel t cur < 0)) := by
  rw [compare_rel]
  by_cases h : rel t bs < rel t cur
  · simp only [h, decide_True, if_true]
    constructor
    · constructor
      · intro h1; exact Or.inr h1
      · rintro (h1 | h1)
        · omega
        · exact h1
    · constructor
      · intro h1; exact ⟨by omega, h1⟩
      · rintro ⟨_, h1⟩; exact h1
  · simp only [h, decide_False, Bool.false_eq_true, if_false]
    constructor
    · constructor
      · intro h1; exact Or.inl h1
      · rintro (h1 | h1)
        · exact h1
        · omega
    · constructor
      · intro h1; exact ⟨h1, by omega⟩
      · rintro ⟨h1, _⟩; exact h1

/-- The loop of `efficient_traverse`, for any invariant `TI` of the table,
any set `F` of scores whose members beat the initial `best_score`, and any
description `Wc`, `Lc` of the sign of the children's scores. -/
theorem FullMiniMax.eff_loop_sound (rows cols chain : Nat)
    (recur : Table → ConnectBoard → Option (Int × Table)) (board : ConnectBoard) (t : Bool)
    (depth : Nat) (TI : Table → Prop) (F : Int → Prop) (Wc Lc : Nat → Prop)
    (hF : ∀ s, F s → compare_fn t s (sentinel t) = true)
    (hrec : ∀ t0 c, TI t0 → c < cols → board.is_invalid_move c rows = false →
      (board.make_neighbor c).game_over chain = false →
      ∃ cur t1, recur t0 (board.make_neighbor c) = some (cur, t1) ∧ TI t1
        ∧ (0 < rel t cur ↔ Wc c) ∧ (rel t cur < 0 ↔ Lc c) ∧ F cur) :
    ∀ (l : List Nat), (∀ c, c ∈ l → c < cols) → ∀ (t0 : Table) (bs : Int) (bm : Option Nat),
      TI t0 → (F bs ∨ bs = sentinel t) →
      ∃ t1 bs1 bm1, FullMiniMax.eff_loop rows cols chain recur board t depth l t0 bs bm
          = some (t1, bs1, bm1) ∧ TI t1
        ∧ (((∃ c, c ∈ l ∧ board.is_invalid_move c rows = false
              ∧ (board.make_neighbor c).game_over chain = true)
            ∧ bs1 = (if t then FullMiniMax.score rows cols (depth + 1)
                     else -FullMiniMax.score rows cols (depth + 1)))
          ∨ ((∀ c, c ∈ l → board.is_invalid_move c rows = false →
                (board.make_neighbor c).game_over chain = false)
            ∧ (0 < rel t bs1 ↔ (0 < rel t bs
                ∨ ∃ c, c ∈ l ∧ board.is_invalid_move c rows = false ∧ Wc c))
            ∧ (rel t bs1 < 0 ↔ (rel t bs < 0
                ∧ ∀ c, c ∈ l → board.is_invalid_move c rows = false → Lc c))
            ∧ (F bs1 ∨ (bs1 = bs ∧ ∀ c, c ∈ l → board.is_invalid_move c rows = true)))) := by
  intro l
  induction l with
  | nil =>
    intro _ t0 bs bm hT _
    refine ⟨t0, bs, bm, rfl, hT, Or.inr ⟨?_, ?_, ?_, Or.inr ⟨rfl, ?_⟩⟩⟩
    · intro c hc; simp at hc
    · simp
    · simp
    · intro c hc; simp at hc
  | cons col rest ih =>
    intro hl t0 bs bm hT hbs
    have hlr : ∀ c, c ∈ rest → c < cols := fun c hc => hl c (List.mem_cons_of_mem _ hc)
    simp only [FullMiniMax.eff_loop]
    by_cases hinv : board.is_invalid_move col rows = true
    · simp only [hinv, if_true]
      obtain ⟨t1, bs1, bm1, he, hT1, hres⟩ := ih hlr t0 bs bm hT hbs
      refine ⟨t1, bs1, bm1, he, hT1, ?_⟩
      rcases hres with ⟨⟨c, hc, hv, hw⟩, hs⟩ | ⟨hnw, hpos, hneg, hform⟩
      · exact Or.inl ⟨⟨c, List.mem_cons_of_mem _ hc, hv, hw⟩, hs⟩
      · refine Or.inr ⟨?_, ?_, ?_, ?_⟩
        · intro c hc hv
          rcases List.mem_cons.1 hc with h | h
          · rw [h, hinv] at hv; exact Bool.noConfusion hv
          · exact hnw c h hv
        · rw [hpos]
          constructor
          · rintro (h | ⟨c, hc, hv, hw⟩)
            · exact Or.inl h
            · exact Or.inr ⟨c, List.mem_cons_of_mem _ hc, hv, hw⟩
          · rintro (h | ⟨c, hc, hv, hw⟩)
            · exact Or.inl h
            · rcases List.mem_cons.1 hc with h | h
              · rw [h, hinv] at hv; exact Bool.noConfusion hv
              · exact Or.inr ⟨c, h, hv, hw⟩
        · rw [hneg]
          constructor
          · rintro ⟨h1, h2⟩
            refine ⟨h1, ?_⟩
            intro c hc hv
            rcases List.mem_cons.1 hc with h | h
            · rw [h, hinv] at hv; exact Bool.noConfusion hv
            · exact h2 c h hv
          · rintro ⟨h1, h2⟩
            exact ⟨h1, fun c hc hv => h2 c (List.mem_cons_of_mem _ hc) hv⟩
        · rcases hform with h | ⟨h1, h2⟩
          · exact Or.inl h
          · refine Or.inr ⟨h1, ?_⟩
            intro c hc
            rcases List.mem_cons.1 hc with h | h
            · rw [h]; exact hinv
            · exact h2 c h
    · have hv : board.is_invalid_move col rows = false := by simpa using hinv
      simp only [hv, Bool.false_eq_true, if_false]
      by_cases hwin : (board.make_neighbor col).game_over chain = true
      · simp only [hwin, if_true]
        exact ⟨t0, _, _, rfl, hT, Or.inl ⟨⟨col, List.mem_cons_self _ _, hv, hwin⟩, rfl⟩⟩
      · have hw : (board.make_neighbor col).game_over chain = false := by simpa using hwin
        simp only [hw, Bool.false_eq_true, if_false]
        obtain ⟨cur, t1, hr, hT1, hcW, hcL, hcF⟩ :=
          hrec t0 col hT (hl col (List.mem_cons_self _ _)) hv hw
        simp only [hr]
        obtain ⟨hup, hun⟩ := rel_update t cur bs
        have hbs2 : F (if compare_fn t cur bs = true then cur else bs)
            ∨ (if compare_fn t cur bs = true then cur else bs) = sentinel t := by
          by_cases hc : compare_fn t cur bs = true
          · simp only [hc, if_true]; exact Or.inl hcF
          · simp only [hc, if_false]; exact hbs
        have hFbs2 : F (if compare_fn t cur bs = true then cur else bs) := by
          by_cases hc : compare_fn t cur bs = true
          · simp only [hc, if_true]; exact hcF
          · simp only [hc, if_false]
            rcases hbs with h | h
            · exact h
            · exfalso
              apply hc
              rw [h]
              exact hF cur hcF
        have key : ∀ bm2, ∃ t2 bs1 bm1,
            FullMiniMax.eff_loop rows cols chain recur board t depth rest t1
              (if compare_fn t cur bs = true then cur else bs) bm2 = some (t2, bs1, bm1) ∧ TI t2
            ∧ (((∃ c, c ∈ col :: rest ∧ board.is_invalid_move c rows = false
                  ∧ (board.make_neighbor c).game_over chain = true)
                ∧ bs1 = (if t then FullMiniMax.score rows cols (depth + 1)
                         else -FullMiniMax.score rows cols (depth + 1)))
              ∨ ((∀ c, c ∈ col :: rest → board.is_invalid_move c rows = false →
                    (board.make_neighbor c).game_over chain = false)
                ∧ (0 < rel t bs1 ↔ (0 < rel t bs
                    ∨ ∃ c, c ∈ col :: rest ∧ board.is_invalid_move c rows = false ∧ Wc c))
                ∧ (rel t bs1 < 0 ↔ (rel t bs < 0
                    ∧ ∀ c, c ∈ col :: rest → board.is_invalid_move c rows = false → Lc c))
                ∧ (F bs1 ∨ (bs1 = bs
                    ∧ ∀ c, c ∈ col :: rest → board.is_invalid_move c rows = true)))) := by
          intro bm2
          obtain ⟨t2, bs1, bm1, he, hT2, hres⟩ := ih hlr t1 _ bm2 hT1 hbs2
          refine ⟨t2, bs1, bm1, he, hT2, ?_⟩
          rcases hres with ⟨⟨c, hc, hcv, hcw⟩, hs⟩ | ⟨hnw, hpos, hneg, hform⟩
          · exact Or.inl ⟨⟨c, List.mem_cons_of_mem _ hc, hcv, hcw⟩, hs⟩
          · refine Or.inr ⟨?_, ?_, ?_, Or.inl ?_⟩
            · intro c hc hcv
              rcases List.mem_cons.1 hc with h | h
              · rw [h]; exact hw
              · exact hnw c h hcv
            · rw [hpos, hup, hcW]
              constructor
              · rintro ((h | h) | ⟨c, hc, hcv, hcw⟩)
                · exact Or.inl h
                · exact Or.inr ⟨col, List.mem_cons_self _ _, hv, h⟩
                · exact Or.inr ⟨c, List.mem_cons_of_mem _ hc, hcv, hcw⟩
              · rintro (h | ⟨c, hc, hcv, hcw⟩)
                · exact Or.inl (Or.inl h)
                · rcases List.mem_cons.1 hc with h | h
                  · rw [h] at hcw; exact Or.inl (Or.inr hcw)
                  · exact Or.inr ⟨c, h, hcv, hcw⟩
            · rw [hneg, hun, hcL]
              constructor
              · rintro ⟨⟨h1, h2⟩, h3⟩
                refine ⟨h1, ?_⟩
                intro c hc hcv
                rcases List.mem_cons.1 hc with h | h
                · rw [h]; exact h2
                · exact h3 c h hcv
              · rintro ⟨h1, h2⟩
                exact ⟨⟨h1, h2 col (List.mem_cons_self _ _) hv⟩,
                  fun c hc hcv => h2 c (List.mem_cons_of_mem _ hc) hcv⟩
            · rcases hform with h | ⟨h1, _⟩
              · exact h
              · rw [h1]; exact hFbs2
        by_cases hc : compare_fn t cur bs = true
        · simp only [hc, if_true] at key ⊢
          exact key (some col)
        · simp only [hc, if_false] at key ⊢
          exact key bm

/-! ## The optimized search computes the sign of the game value -/

theorem FullMiniMax.score_bound (rows cols k : Nat) (hrows : rows ≤ 7) (hcols : cols ≤ 7) :
    0 ≤ FullMiniMax.score rows cols k ∧ FullMiniMax.score rows cols k ≤ 490000 := by
  unfold FullMiniMax.score
  constructor
  · exact Int.natCast_nonneg _
  · have h1 : 10000 * rows * cols / k ≤ 10000 * rows * cols := Nat.div_le_self _ _
    have h2 : rows * cols ≤ 7 * 7 := Nat.mul_le_mul hrows hcols
    have h3 : 10000 * rows * cols ≤ 490000 := by
      rw [Nat.mul_assoc]; omega
    exact_mod_cast le_trans h1 h3

theorem FullMiniMax.score_pos (rows cols k : Nat) (hk1 : 1 ≤ k) (hk : k ≤ 10000 * rows * cols) :
    0 < FullMiniMax.score rows cols k := by
  unfold FullMiniMax.score
  exact_mod_cast Nat.div_pos hk (by omega)

theorem FormE.beats_sentinel_opt {rows cols : Nat} (hrows : rows ≤ 7) (hcols : cols ≤ 7) (t : Bool)
    (s : Int) (h : FormE rows cols s) : compare_fn t s (sentinel t) = true := by
  have hb : -490000 ≤ s ∧ s ≤ 490000 := by
    rcases h with h | ⟨k, _, _, ⟨_, h⟩ | ⟨_, h⟩⟩
    · omega
    · have := FullMiniMax.score_bound rows cols k hrows hcols; omega
    · have := FullMiniMax.score_bound rows cols k hrows hcols; omega
  cases t <;> simp [compare_fn, sentinel, INT_MIN, INT_MAX] <;> omega

theorem SignOK.sign_child {rows cols chain : Nat} {t : Bool} {b : ConnectBoard} {cur : Int}
    (h : SignOK rows cols chain (!t) b cur) :
    (0 < rel t cur ↔ CanForce rows cols chain t (!t) b)
    ∧ (rel t cur < 0 ↔ CanForce rows cols chain (!t) (!t) b) := by
  obtain ⟨h1, h2⟩ := h
  rw [rel_not] at h1 h2
  rw [Bool.not_not] at h2
  constructor
  · rw [← h2]; omega
  · rw [← h1]; omega

theorem SignOK.of_full {rows cols chain : Nat} (t : Bool) (b : ConnectBoard)
    (hfull : ∀ c, c < cols → b.is_invalid_move c rows = true) :
    SignOK rows cols chain t b 0 := by
  have hno : ∀ p, ¬ CanForce rows cols chain p t b := by
    intro p h
    obtain ⟨c, hc, hv⟩ := h.playable
    rw [hfull c hc] at hv
    exact Bool.noConfusion hv
  constructor
  · constructor
    · intro h; cases t <;> simp [rel] at h
    · intro h; exact absurd h (hno _)
  · constructor
    · intro h; cases t <;> simp [rel] at h
    · intro h; exact absurd h (hno _)

/-- The value of a node with an immediately winning column. -/
theorem SignOK.of_win {rows cols chain : Nat} (t : Bool) (b : ConnectBoard) (s : Int)
    (hs : 0 < rel t s) (c : Nat) (hc : c < cols) (hv : b.is_invalid_move c rows = false)
    (hw : (b.make_neighbor c).game_over chain = true) : SignOK rows cols chain t b s := by
  constructor
  · constructor
    · intro _; exact CanForce.win_now c rfl hc hv hw
    · intro _; exact hs
  · constructor
    · intro h; omega
    · intro h
      exfalso
      cases h with
      | win_now c2 ht _ _ _ => cases t <;> simp at ht
      | own_move c2 ht _ _ _ _ => cases t <;> simp at ht
      | any_reply _ _ hnw _ =>
        have := hnw c hc hv
        rw [hw] at this
        exact Bool.noConfusion this

/-- The value of a node none of whose playable columns wins at once, from the
signs of its children. -/
theorem SignOK.of_children {rows cols chain : Nat} (t : Bool) (b : ConnectBoard) (s : Int)
    (hex : ∃ c, c < cols ∧ b.is_invalid_move c rows = false)
    (hnw : ∀ c, c < cols → b.is_invalid_move c rows = false →
      (b.make_neighbor c).game_over chain = false)
    (hpos : 0 < rel t s ↔ ∃ c, c < cols ∧ b.is_invalid_move c rows = false
      ∧ CanForce rows cols chain t (!t) (b.make_neighbor c))
    (hneg : rel t s < 0 ↔ ∀ c, c < cols → b.is_invalid_move c rows = false →
      CanForce rows cols chain (!t) (!t) (b.make_neighbor c)) :
    SignOK rows cols chain t b s := by
  constructor
  · rw [hpos]
    constructor
    · rintro ⟨c, hc, hv, h⟩
      exact CanForce.own_move c rfl hc hv (hnw c hc hv) h
    · intro h
      cases h with
      | win_now c _ hc hv hw =>
        have := hnw c hc hv
        rw [hw] at this
        exact Bool.noConfusion this
      | own_move c _ hc hv _ h => exact ⟨c, hc, hv, h⟩
      | any_reply ht _ _ _ => exact absurd rfl ht
  · rw [hneg]
    constructor
    · intro h
      exact CanForce.any_reply (by cases t <;> simp) hex hnw h
    · intro h
      cases h with
      | win_now c ht _ _ _ => cases t <;> simp at ht
      | own_move c ht _ _ _ _ => cases t <;> simp at ht
      | any_reply _ _ _ h => exact h

theorem TableE.setE {rows cols chain : Nat} {t : Table} (hT : TableE rows cols chain t)
    (b : ConnectBoard) (s : Int) (bm : Option Nat) (d : Nat) (hg : Good rows cols d b)
    (hs : SignOK rows cols chain (roleAt d) b s) (hf : FormE rows cols s) :
    TableE rows cols chain (t.set b (s, bm)) := by
  intro b2 e he
  by_cases hb : b2 = b
  · subst hb
    rw [Table.find_set_self] at he
    have : e = (s, bm) := (Option.some.inj he).symm
    subst this
    exact ⟨d, hg, hs, hf⟩
  · rw [Table.find_set_other t b b2 _ hb] at he
    exact hT b2 e he

theorem FullMiniMax.efficient_traverse_sound (rows cols chain : Nat) (hrows1 : 1 ≤ rows)
    (hrows : rows ≤ 7) (hcols : cols ≤ 7) :
    ∀ (fuel : Nat) (t0 : Table) (b : ConnectBoard) (d : Nat),
      TableE rows cols chain t0 → Good rows cols d b → rows * cols - d < fuel →
      ∃ s t1, FullMiniMax.efficient_traverse rows cols chain fuel t0 b (roleAt d) d = some (s, t1)
        ∧ TableE rows cols chain t1 ∧ SignOK rows cols chain (roleAt d) b s
        ∧ FormE rows cols s ∧ ((∃ m, t1.find b = some (s, m)) ∨ d = rows * cols) := by
  intro fuel
  induction fuel with
  | zero => intro t0 b d _ _ h; omega
  | succ fuel ih =>
    intro t0 b d hT hg hf
    have hle := hg.le hrows1 hrows hcols
    simp only [FullMiniMax.efficient_traverse]
    cases hfind : t0.find b with
    | some e =>
      obtain ⟨d2, hg2, hs2, hf2⟩ := hT b e hfind
      have : d2 = d := Good.depth_unique hrows1 hrows hcols hg2 hg
      subst this
      exact ⟨e.1, t0, rfl, hT, hs2, hf2, Or.inl ⟨e.2, hfind⟩⟩
    | none =>
      simp only []
      by_cases hN : d = rows * cols
      · simp only [hN, if_true]
        refine ⟨0, t0, rfl, hT, ?_, Or.inl rfl, Or.inr trivial⟩
        rw [← hN]
        exact SignOK.of_full _ b (hg.full hrows1 hrows hcols hN)
      · simp only [hN, if_false]
        have hex := hg.not_full hrows1 hrows hcols hN
        obtain ⟨t1, bs1, bm1, he, hT1, hres⟩ := FullMiniMax.eff_loop_sound rows cols chain
          (fun t b => FullMiniMax.efficient_traverse rows cols chain fuel t b (!roleAt d) (d + 1))
          b (roleAt d) d (TableE rows cols chain) (FormE rows cols)
          (fun c => CanForce rows cols chain (roleAt d) (!roleAt d) (b.make_neighbor c))
          (fun c => CanForce rows cols chain (!roleAt d) (!roleAt d) (b.make_neighbor c))
          (FormE.beats_sentinel_opt hrows hcols (roleAt d))
          (by
            intro t2 c hT2 hc hv _
            obtain ⟨cur, t3, h1, h2, h3, h4, _⟩ :=
              ih t2 (b.make_neighbor c) (d + 1) hT2 (hg.good_step c hc hv) (by omega)
            rw [roleAt_succ] at h1 h3
            exact ⟨cur, t3, h1, h2, h3.sign_child.1, h3.sign_child.2, h4⟩)
          (List.range cols) (fun c hc => List.mem_range.1 hc) t0 (sentinel (roleAt d)) none hT
          (Or.inr rfl)
        have he2 : FullMiniMax.eff_loop rows cols chain
            (fun t b => FullMiniMax.efficient_traverse rows cols chain fuel t b (!roleAt d) (d + 1))
            b (roleAt d) d (List.range cols) t0 (if roleAt d = true then INT_MIN else INT_MAX) none
            = some (t1, bs1, bm1) := he
        rw [he2]
        have hval : SignOK rows cols chain (roleAt d) b bs1 ∧ FormE rows cols bs1 := by
          rcases hres with ⟨⟨c, hc, hv, hw⟩, hs⟩ | ⟨hnw, hpos, hneg, hform⟩
          · have hc2 := List.mem_range.1 hc
            have hpos : 0 < FullMiniMax.score rows cols (d + 1) := by
              apply FullMiniMax.score_pos
              · omega
              · have : d + 1 ≤ rows * cols := by omega
                have : rows * cols ≤ 10000 * (rows * cols) := by omega
                rw [Nat.mul_assoc]; omega
            constructor
            · apply SignOK.of_win (roleAt d) b bs1 _ c hc2 hv hw
              rw [hs]
              cases roleAt d <;> simp [rel] <;> exact hpos
            · refine Or.inr ⟨d + 1, by omega, by omega, ?_⟩
              rw [hs]
              unfold roleAt
              by_cases hpar : d % 2 = 0
              · have : (d + 1) % 2 = 1 := by omega
                simp [hpar, this]
              · have : (d + 1) % 2 = 0 := by omega
                simp [hpar, this]
          · constructor
            · apply SignOK.of_children (roleAt d) b bs1 hex
                (fun c hc hv => hnw c (List.mem_range.2 hc) hv)
              · rw [hpos]
                have := rel_sentinel_neg (roleAt d)
                constructor
                · rintro (h | ⟨c, hc, hv, h⟩)
                  · omega
                  · exact ⟨c, List.mem_range.1 hc, hv, h⟩
                · rintro ⟨c, hc, hv, h⟩
                  exact Or.inr ⟨c, List.mem_range.2 hc, hv, h⟩
              · rw [hneg]
                constructor
                · rintro ⟨_, h⟩ c hc hv
                  exact h c (List.mem_range.2 hc) hv
                · intro h
                  exact ⟨rel_sentinel_neg (roleAt d),
                    fun c hc hv => h c (List.mem_range.1 hc) hv⟩
            · rcases hform with h | ⟨_, h⟩
              · exact h
              · exfalso
                obtain ⟨c, hc, hv⟩ := hex
                rw [h c (List.mem_range.2 hc)] at hv
                exact Bool.noConfusion hv
        exact ⟨bs1, _, rfl, hT1.setE b bs1 bm1 d hg hval.1 hval.2, hval.1, hval.2,
          Or.inl ⟨bm1, Table.find_set_self _ _ _⟩⟩

/-! ## The plain search computes the sign of the game value -/

/-- The loop of `traverse`, for any invariant `TI` of the table, any set `F` of
scores whose members beat the initial `best_score`, and any description `Wc`,
`Lc` of the sign of the children's scores. -/
theorem FullMiniMax.plain_loop_sound (rows cols : Nat)
    (recur : Table → ConnectBoard → Option (Int × Table)) (board : ConnectBoard) (t : Bool)
    (TI : Table → Prop) (F : Int → Prop) (Wc Lc : Nat → Prop)
    (hF : ∀ s, F s → compare_fn t s (sentinel t) = true)
    (hrec : ∀ t0 c, TI t0 → c < cols → board.is_invalid_move c rows = false →
      ∃ cur t1, recur t0 (board.make_neighbor c) = some (cur, t1) ∧ TI t1
        ∧ (0 < rel t cur ↔ Wc c) ∧ (rel t cur < 0 ↔ Lc c) ∧ F cur) :
    ∀ (l : List Nat), (∀ c, c ∈ l → c < cols) → ∀ (t0 : Table) (bs : Int) (bm : Option Nat),
      TI t0 → (F bs ∨ bs = sentinel t) →
      ∃ t1 bs1 bm1, FullMiniMax.plain_loop rows recur board t l t0 bs bm = some (t1, bs1, bm1)
        ∧ TI t1
        ∧ (0 < rel t bs1 ↔ (0 < rel t bs
            ∨ ∃ c, c ∈ l ∧ board.is_invalid_move c rows = false ∧ Wc c))
        ∧ (rel t bs1 < 0 ↔ (rel t bs < 0
            ∧ ∀ c, c ∈ l → board.is_invalid_move c rows = false → Lc c))
        ∧ (F bs1 ∨ (bs1 = bs ∧ ∀ c, c ∈ l → board.is_invalid_move c rows = true)) := by
  intro l
  induction l with
  | nil =>
    intro _ t0 bs bm hT _
    refine ⟨t0, bs, bm, rfl, hT, ?_, ?_, Or.inr ⟨rfl, ?_⟩⟩
    · simp
    · simp
    · intro c hc; simp at hc
  | cons col rest ih =>
    intro hl t0 bs bm hT hbs
    have hlr : ∀ c, c ∈ rest → c < cols := fun c hc => hl c (List.mem_cons_of_mem _ hc)
    simp only [FullMiniMax.plain_loop]
    by_cases hinv : board.is_invalid_move col rows = true
    · simp only [hinv, if_true]
      obtain ⟨t1, bs1, bm1, he, hT1, hpos, hneg, hform⟩ := ih hlr t0 bs bm hT hbs
      refine ⟨t1, bs1, bm1, he, hT1, ?_, ?_, ?_⟩
      · rw [hpos]
        constructor
        · rintro (h | ⟨c, hc, hv, hw⟩)
          · exact Or.inl h
          · exact Or.inr ⟨c, List.mem_cons_of_mem _ hc, hv, hw⟩
        · rintro (h | ⟨c, hc, hv, hw⟩)
          · exact Or.inl h
          · rcases List.mem_cons.1 hc with h | h
            · rw [h, hinv] at hv; exact Bool.noConfusion hv
            · exact Or.inr ⟨c, h, hv, hw⟩
      · rw [hneg]
        constructor
        · rintro ⟨h1, h2⟩
          refine ⟨h1, ?_⟩
          intro c hc hv
          rcases List.mem_cons.1 hc with h | h
          · rw [h, hinv] at hv; exact Bool.noConfusion hv
          · exact h2 c h hv
        · rintro ⟨h1, h2⟩
          exact ⟨h1, fun c hc hv => h2 c (List.mem_cons_of_mem _ hc) hv⟩
      · rcases hform with h | ⟨h1, h2⟩
        · exact Or.inl h
        · refine Or.inr ⟨h1, ?_⟩
          intro c hc
          rcases List.mem_cons.1 hc with h | h
          · rw [h]; exact hinv
          · exact h2 c h
    · have hv : board.is_invalid_move col rows = false := by simpa using hinv
      simp only [hv, Bool.false_eq_true, if_false]
      obtain ⟨cur, t1, hr, hT1, hcW, hcL, hcF⟩ :=
        hrec t0 col hT (hl col (List.mem_cons_self _ _)) hv
      simp only [hr]
      obtain ⟨hup, hun⟩ := rel_update t cur bs
      have hbs2 : F (if compare_fn t cur bs = true then cur else bs)
          ∨ (if compare_fn t cur bs = true then cur else bs) = sentinel t := by
        by_cases hc : compare_fn t cur bs = true
        · simp only [hc, if_true]; exact Or.inl hcF
        · simp only [hc, if_false]; exact hbs
      have hFbs2 : F (if compare_fn t cur bs = true then cur else bs) := by
        by_cases hc : compare_fn t cur bs = true
        · simp only [hc, if_true]; exact hcF
        · simp only [hc, if_false]
          rcases hbs with h | h
          · exact h
          · exfalso
            apply hc
            rw [h]
            exact hF cur hcF
      have key : ∀ bm2, ∃ t2 bs1 bm1,
          FullMiniMax.plain_loop rows recur board t rest t1
            (if compare_fn t cur bs = true then cur else bs) bm2 = some (t2, bs1, bm1) ∧ TI t2
          ∧ (0 < rel t bs1 ↔ (0 < rel t bs
              ∨ ∃ c, c ∈ col :: rest ∧ board.is_invalid_move c rows = false ∧ Wc c))
          ∧ (rel t bs1 < 0 ↔ (rel t bs < 0
              ∧ ∀ c, c ∈ col :: rest → board.is_invalid_move c rows = false → Lc c))
          ∧ (F bs1 ∨ (bs1 = bs
              ∧ ∀ c, c ∈ col :: rest → board.is_invalid_move c rows = true)) := by
        intro bm2
        obtain ⟨t2, bs1, bm1, he, hT2, hpos, hneg, hform⟩ := ih hlr t1 _ bm2 hT1 hbs2
        refine ⟨t2, bs1, bm1, he, hT2, ?_, ?_, Or.inl ?_⟩
        · rw [hpos, hup, hcW]
          constructor
          · rintro ((h | h) | ⟨c, hc, hcv, hcw⟩)
            · exact Or.inl h
            · exact Or.inr ⟨col, List.mem_cons_self _ _, hv, h⟩
            · exact Or.inr ⟨c, List.mem_cons_of_mem _ hc, hcv, hcw⟩
          · rintro (h | ⟨c, hc, hcv, hcw⟩)
            · exact Or.inl (Or.inl h)
            · rcases List.mem_cons.1 hc with h | h
              · rw [h] at hcw; exact Or.inl (Or.inr hcw)
              · exact Or.inr ⟨c, h, hcv, hcw⟩
        · rw [hneg, hun, hcL]
          constructor
          · rintro ⟨⟨h1, h2⟩, h3⟩
            refine ⟨h1, ?_⟩
            intro c hc hcv
            rcases List.mem_cons.1 hc with h | h
            · rw [h]; exact h2
            · exact h3 c h hcv
          · rintro ⟨h1, h2⟩
            exact ⟨⟨h1, h2 col (List.mem_cons_self _ _) hv⟩,
              fun c hc hcv => h2 c (List.mem_cons_of_mem _ hc) hcv⟩
        · rcases hform with h | ⟨h1, _⟩
          · exact h
          · rw [h1]; exact hFbs2
      by_cases hc : compare_fn t cur bs = true
      · simp only [hc, if_true] at key ⊢
        exact key (some col)
      · simp only [hc, if_false] at key ⊢
        exact key bm

theorem game_over_empty (chain : Nat) : ConnectBoard.empty.game_over chain = false := by
  have h3 : ConnectBoard.empty.connect_three_game_over = false := by decide
  have h4 : ConnectBoard.empty.connect_four_game_over = false := by decide
  simp [ConnectBoard.game_over, h3, h4]

theorem Good.pos_of_game_over {rows cols chain d : Nat} {b : ConnectBoard}
    (h : Good rows cols d b) (hg : b.game_over chain = true) : 1 ≤ d := by
  obtain ⟨ms, _, hp, hlen⟩ := h
  by_contra hd
  have h0 : ms.length = 0 := by omega
  have hnil : ms = [] := List.length_eq_zero.1 h0
  subst hnil
  have : b = ConnectBoard.empty := hp.symm
  rw [this, game_over_empty] at hg
  exact Bool.noConfusion hg

theorem FormP.beats_sentinel_plain {rows cols : Nat} (hrows : rows ≤ 7) (hcols : cols ≤ 7) (t : Bool)
    (s : Int) (h : FormP rows cols s) : compare_fn t s (sentinel t) = true := by
  have hb : -490000 ≤ s ∧ s ≤ 490000 := by
    rcases h with h | ⟨k, _, _, ⟨_, h⟩ | ⟨_, h⟩⟩
    · omega
    · have := FullMiniMax.score_bound rows cols (k + 1) hrows hcols; omega
    · have := FullMiniMax.score_bound rows cols (k + 1) hrows hcols; omega
  cases t <;> simp [compare_fn, sentinel, INT_MIN, INT_MAX] <;> omega

theorem PlainOK.plain_child {rows cols chain d : Nat} {b : ConnectBoard} {cur : Int}
    (h : PlainOK rows cols chain (d + 1) b cur) :
    (0 < rel (roleAt d) cur
      ↔ (b.game_over chain = true
          ∨ (b.game_over chain = false
              ∧ CanForce rows cols chain (roleAt d) (!roleAt d) b)))
    ∧ (rel (roleAt d) cur < 0
      ↔ (b.game_over chain = false
          ∧ CanForce rows cols chain (!roleAt d) (!roleAt d) b)) := by
  obtain ⟨h1, h2⟩ := h
  rw [roleAt_succ] at h1 h2
  by_cases hg : b.game_over chain = true
  · have := h1 hg
    rw [rel_not] at this
    constructor
    · constructor
      · intro _; exact Or.inl hg
      · intro _; omega
    · constructor
      · intro h; omega
      · rintro ⟨h, _⟩
        rw [hg] at h
        exact Bool.noConfusion h
  · have hg2 : b.game_over chain = false := by simpa using hg
    obtain ⟨c1, c2⟩ := (h2 hg2).sign_child
    constructor
    · rw [c1]
      constructor
      · intro h; exact Or.inr ⟨hg2, h⟩
      · rintro (h | ⟨_, h⟩)
        · exact absurd h hg
        · exact h
    · rw [c2]
      constructor
      · intro h; exact ⟨hg2, h⟩
      · rintro ⟨_, h⟩; exact h

/-- The value of a node from the signs of its children, won children
included. -/
theorem SignOK.of_children_plain {rows cols chain : Nat} (t : Bool) (b : ConnectBoard) (s : Int)
    (hex : ∃ c, c < cols ∧ b.is_invalid_move c rows = false)
    (hpos : 0 < rel t s ↔ ∃ c, c < cols ∧ b.is_invalid_move c rows = false
      ∧ ((b.make_neighbor c).game_over chain = true
          ∨ ((b.make_neighbor c).game_over chain = false
              ∧ CanForce rows cols chain t (!t) (b.make_neighbor c))))
    (hneg : rel t s < 0 ↔ ∀ c, c < cols → b.is_invalid_move c rows = false →
      ((b.make_neighbor c).game_over chain = false
        ∧ CanForce rows cols chain (!t) (!t) (b.make_neighbor c))) :
    SignOK rows cols chain t b s := by
  constructor
  · rw [hpos]
    constructor
    · rintro ⟨c, hc, hv, h | ⟨hw, h⟩⟩
      · exact CanForce.win_now c rfl hc hv h
      · exact CanForce.own_move c rfl hc hv hw h
    · intro h
      cases h with
      | win_now c _ hc hv hw => exact ⟨c, hc, hv, Or.inl hw⟩
      | own_move c _ hc hv hw h => exact ⟨c, hc, hv, Or.inr ⟨hw, h⟩⟩
      | any_reply ht _ _ _ => exact absurd rfl ht
  · rw [hneg]
    constructor
    · intro h
      exact CanForce.any_reply (by cases t <;> simp) hex
        (fun c hc hv => (h c hc hv).1) (fun c hc hv => (h c hc hv).2)
    · intro h
      cases h with
      | win_now c ht _ _ _ => cases t <;> simp at ht
      | own_move c ht _ _ _ _ => cases t <;> simp at ht
      | any_reply _ _ hnw h => exact fun c hc hv => ⟨hnw c hc hv, h c hc hv⟩

theorem TableP.setP {rows cols chain : Nat} {t : Table} (hT : TableP rows cols chain t)
    (b : ConnectBoard) (s : Int) (bm : Option Nat) (d : Nat) (hg : Good rows cols d b)
    (hs : PlainOK rows cols chain d b s) (hf : FormP rows cols s) :
    TableP rows cols chain (t.set b (s, bm)) := by
  intro b2 e he
  by_cases hb : b2 = b
  · subst hb
    rw [Table.find_set_self] at he
    have : e = (s, bm) := (Option.some.inj he).symm
    subst this
    exact ⟨d, hg, hs, hf⟩
  · rw [Table.find_set_other t b b2 _ hb] at he
    exact hT b2 e he

theorem FullMiniMax.traverse_sound (rows cols chain : Nat) (hrows1 : 1 ≤ rows)
    (hrows : rows ≤ 7) (hcols : cols ≤ 7) :
    ∀ (fuel : Nat) (t0 : Table) (b : ConnectBoard) (d : Nat),
      TableP rows cols chain t0 → Good rows cols d b → rows * cols - d < fuel →
      ∃ s t1, FullMiniMax.traverse rows cols chain fuel t0 b (roleAt d) d = some (s, t1)
        ∧ TableP rows cols chain t1 ∧ PlainOK rows cols chain d b s
        ∧ FormP rows cols s ∧ ∃ m, t1.find b = some (s, m) := by
  intro fuel
  induction fuel with
  | zero => intro t0 b d _ _ h; omega
  | succ fuel ih =>
    intro t0 b d hT hg hf
    have hle := hg.le hrows1 hrows hcols
    simp only [FullMiniMax.traverse]
    cases hfind : t0.find b with
    | some e =>
      obtain ⟨d2, hg2, hs2, hf2⟩ := hT b e hfind
      have : d2 = d := Good.depth_unique hrows1 hrows hcols hg2 hg
      subst this
      exact ⟨e.1, t0, rfl, hT, hs2, hf2, e.2, hfind⟩
    | none =>
      simp only []
      by_cases hgo : b.game_over chain = true
      · simp only [hgo, if_true]
        have hd1 := hg.pos_of_game_over hgo
        have hpos : 0 < FullMiniMax.score rows cols (d + 1) := by
          apply FullMiniMax.score_pos
          · omega
          · have : rows * cols ≤ 10000 * (rows * cols) := by omega
            have : d + 1 ≤ 10000 * (rows * cols) := by omega
            rw [Nat.mul_assoc]; exact this
        have hok : PlainOK rows cols chain d b
            (if roleAt d = true then -FullMiniMax.score rows cols (d + 1)
             else FullMiniMax.score rows cols (d + 1)) := by
          constructor
          · intro _
            cases roleAt d <;> simp [rel] <;> exact hpos
          · intro h
            rw [hgo] at h
            exact Bool.noConfusion h
        have hform : FormP rows cols
            (if roleAt d = true then -FullMiniMax.score rows cols (d + 1)
             else FullMiniMax.score rows cols (d + 1)) := by
          refine Or.inr ⟨d, hd1, hle, ?_⟩
          unfold roleAt
          by_cases hpar : d % 2 = 0
          · simp [hpar]
          · have : d % 2 = 1 := by omega
            simp [hpar, this]
        exact ⟨_, _, rfl, hT.setP b _ _ d hg hok hform, hok, hform, _,
          Table.find_set_self _ _ _⟩
      · have hgo2 : b.game_over chain = false := by simpa using hgo
        simp only [hgo2, Bool.false_eq_true, if_false]
        by_cases hN : d = rows * cols
        · simp only [hN, if_true]
          have hok : PlainOK rows cols chain d b 0 :=
            ⟨fun h => absurd h hgo,
              fun _ => SignOK.of_full _ b (hg.full hrows1 hrows hcols hN)⟩
          rw [← hN]
          exact ⟨0, _, rfl, hT.setP b 0 (some 0) d hg hok (Or.inl rfl), hok, Or.inl rfl, _,
            Table.find_set_self _ _ _⟩
        · simp only [hN, if_false]
          have hex := hg.not_full hrows1 hrows hcols hN
          obtain ⟨t1, bs1, bm1, he, hT1, hpos, hneg, hform⟩ := FullMiniMax.plain_loop_sound
            rows cols
            (fun t b => FullMiniMax.traverse rows cols chain fuel t b (!roleAt d) (d + 1))
            b (roleAt d) (TableP rows cols chain) (FormP rows cols)
            (fun c => (b.make_neighbor c).game_over chain = true
              ∨ ((b.make_neighbor c).game_over chain = false
                  ∧ CanForce rows cols chain (roleAt d) (!roleAt d) (b.make_neighbor c)))
            (fun c => (b.make_neighbor c).game_over chain = false
              ∧ CanForce rows cols chain (!roleAt d) (!roleAt d) (b.make_neighbor c))
            (FormP.beats_sentinel_plain hrows hcols (roleAt d))
            (by
              intro t2 c hT2 hc hv
              obtain ⟨cur, t3, h1, h2, h3, h4, _⟩ :=
                ih t2 (b.make_neighbor c) (d + 1) hT2 (hg.good_step c hc hv) (by omega)
              rw [roleAt_succ] at h1
              exact ⟨cur, t3, h1, h2, h3.plain_child.1, h3.plain_child.2, h4⟩)
            (List.range cols) (fun c hc => List.mem_range.1 hc) t0 (sentinel (roleAt d)) none hT
            (Or.inr rfl)
          have he2 : FullMiniMax.plain_loop rows
              (fun t b => FullMiniMax.traverse rows cols chain fuel t b (!roleAt d) (d + 1))
              b (roleAt d) (List.range cols) t0 (if roleAt d = true then INT_MIN else INT_MAX) none
              = some (t1, bs1, bm1) := he
          rw [he2]
          have hsign : SignOK rows cols chain (roleAt d) b bs1 := by
            apply SignOK.of_children_plain (roleAt d) b bs1 hex
            · rw [hpos]
              have := rel_sentinel_neg (roleAt d)
              constructor
              · rintro (h | ⟨c, hc, hv, h⟩)
                · omega
                · exact ⟨c, List.mem_range.1 hc, hv, h⟩
              · rintro ⟨c, hc, hv, h⟩
                exact Or.inr ⟨c, List.mem_range.2 hc, hv, h⟩
            · rw [hneg]
              constructor
              · rintro ⟨_, h⟩ c hc hv
                exact h c (List.mem_range.2 hc) hv
              · intro h
                exact ⟨rel_sentinel_neg (roleAt d),
                  fun c hc hv => h c (List.mem_range.1 hc) hv⟩
          have hF : FormP rows cols bs1 := by
            rcases hform with h | ⟨_, h⟩
            · exact h
            · exfalso
              obtain ⟨c, hc, hv⟩ := hex
              rw [h c (List.mem_range.2 hc)] at hv
              exact Bool.noConfusion hv
          have hok : PlainOK rows cols chain d b bs1 := ⟨fun h => absurd h hgo, fun _ => hsign⟩
          exact ⟨bs1, _, rfl, hT1.setP b bs1 bm1 d hg hok hF, hok, hF, bm1,
            Table.find_set_self _ _ _⟩

/-! ## Strategy certificates -/

theorem forced_sound (rows cols chain : Nat) (strat : ConnectBoard → Nat) (p : Bool) :
    ∀ (n : Nat) (b : ConnectBoard), forced rows cols chain strat n b = true →
      CanForce rows cols chain p p b := by
  intro n
  induction n with
  | zero => intro b h; simp [forced] at h
  | succ n ih =>
    intro b h
    simp only [forced, Bool.and_eq_true, Bool.or_eq_true, decide_eq_true_eq,
      Bool.not_eq_true', List.any_eq_true, List.all_eq_true, List.mem_range] at h
    obtain ⟨⟨hc, hv⟩, hrest⟩ := h
    by_cases hg : (b.make_neighbor (strat b)).game_over chain = true
    · exact CanForce.win_now (strat b) rfl hc hv hg
    · have hnw : (b.make_neighbor (strat b)).game_over chain = false := by simpa using hg
      rcases hrest with hw | ⟨⟨c2, hc2, hv2⟩, hall⟩
      · exact absurd hw hg
      · refine CanForce.own_move (strat b) rfl hc hv hnw
          (CanForce.any_reply (by cases p <;> simp) ⟨c2, hc2, hv2⟩ ?_ ?_)
        · intro c3 hc3 hv3
          rcases hall c3 hc3 with h | ⟨h, _⟩
          · rw [hv3] at h; exact Bool.noConfusion h
          · exact h
        · intro c3 hc3 hv3
          rcases hall c3 hc3 with h | ⟨_, h⟩
          · rw [hv3] at h; exact Bool.noConfusion h
          · rw [Bool.not_not]
            exact ih _ h

theorem first_player_wins_3x4 : CanForce 3 4 3 true true ConnectBoard.empty :=
  forced_sound 3 4 3 (book_strategy 3 4 3 book_3x4) true 5 ConnectBoard.empty (by decide!)

/-! ## The exhaustive engine on the empty board -/

theorem TableE.nilE (rows cols chain : Nat) : TableE rows cols chain [] := by
  intro b e h
  simp [Table.find] at h

theorem TableP.nilP (rows cols chain : Nat) : TableP rows cols chain [] := by
  intro b e h
  simp [Table.find] at h

theorem roleAt_zero : roleAt 0 = true := by decide

/-- The query of a fresh engine on the empty board returns a score with the
sign of the game value, of the form `FormE` (optimized) or `FormP` (plain). -/
theorem FullMiniMax.call_empty_sound (rows cols chain : Nat) (optimized : Bool)
    (hrows1 : 1 ≤ rows) (hrows : rows ≤ 7) (hcols1 : 1 ≤ cols) (hcols : cols ≤ 7) :
    ∃ s m e1, (FullMiniMax.fresh rows cols chain optimized).call ConnectBoard.empty
        = some ((s, m), e1)
      ∧ SignOK rows cols chain true ConnectBoard.empty s
      ∧ (if optimized = true then FormE rows cols s else FormP rows cols s) := by
  have hN : 0 ≠ rows * cols := by
    have : 0 < rows * cols := Nat.mul_pos (by omega) (by omega)
    omega
  cases optimized with
  | true =>
    obtain ⟨s, t1, he, _, hs, hf, hm⟩ := FullMiniMax.efficient_traverse_sound rows cols chain
      hrows1 hrows hcols (rows * cols + 1) [] ConnectBoard.empty 0 (TableE.nilE _ _ _)
      (Good.zero rows cols) (by omega)
    rw [roleAt_zero] at he hs
    rcases hm with ⟨m, hm⟩ | hm
    · refine ⟨s, m, { FullMiniMax.fresh rows cols chain true with table := t1 }, ?_, hs, ?_⟩
      · simp only [FullMiniMax.call, FullMiniMax.fresh, Table.find, FullMiniMax.search, if_true,
          he, Table.index, hm]
      · simpa using hf
    · exact absurd hm hN
  | false =>
    obtain ⟨s, t1, he, _, hs, hf, m, hm⟩ := FullMiniMax.traverse_sound rows cols chain
      hrows1 hrows hcols (rows * cols + 1) [] ConnectBoard.empty 0 (TableP.nilP _ _ _)
      (Good.zero rows cols) (by omega)
    have hs2 := hs.2 (game_over_empty chain)
    rw [roleAt_zero] at he hs2
    refine ⟨s, m, { FullMiniMax.fresh rows cols chain false with table := t1 }, ?_, hs2, ?_⟩
    · simp only [FullMiniMax.call, FullMiniMax.fresh, Table.find, FullMiniMax.search,
        Bool.false_eq_true, if_false, he, Table.index, hm]
    · simpa using hf

/-- C1: for every `rows` and `cols` in `1..7`, every chain in `{3, 4}` and
either strategy, a fresh engine queried on the empty board returns a score
that is positive iff the first player can force a win, negative iff the second
player can force a win, and zero iff neither can (optimal play ends in a
draw), in the game defined by `is_invalid_move`, `make_neighbor` and
`game_over(chain)`. -/
theorem C1_score_sign_is_game_value (rows cols chain : Nat) (optimized : Bool)
    (hrows1 : 1 ≤ rows) (hrows : rows ≤ 7) (hcols1 : 1 ≤ cols) (hcols : cols ≤ 7)
    (_hchain : chain = 3 ∨ chain = 4) :
    ∃ s m e1, (FullMiniMax.fresh rows cols chain optimized).call ConnectBoard.empty
        = some ((s, m), e1)
      ∧ (0 < s ↔ CanForce rows cols chain true true ConnectBoard.empty)
      ∧ (s < 0 ↔ CanForce rows cols chain false true ConnectBoard.empty)
      ∧ (s = 0 ↔ (¬ CanForce rows cols chain true true ConnectBoard.empty
                  ∧ ¬ CanForce rows cols chain false true ConnectBoard.empty)) := by
  obtain ⟨s, m, e1, hcall, ⟨h1, h2⟩, _⟩ :=
    FullMiniMax.call_empty_sound rows cols chain optimized hrows1 hrows hcols1 hcols
  have r : rel true s = s := rfl
  rw [r] at h1 h2
  have h2b : s < 0 ↔ CanForce rows cols chain false true ConnectBoard.empty := h2
  refine ⟨s, m, e1, hcall, h1, h2b, ?_⟩
  rw [← h1, ← h2b]
  omega

theorem C1_score_sign_is_game_value_witness :
    (1 ≤ 3 ∧ 3 ≤ 7 ∧ 1 ≤ 4 ∧ 4 ≤ 7 ∧ (3 = 3 ∨ 3 = 4))
    ∧ ∃ s m e1, (FullMiniMax.fresh 3 4 3 true).call ConnectBoard.empty = some ((s, m), e1)
      ∧ (0 < s ↔ CanForce 3 4 3 true true ConnectBoard.empty)
      ∧ (s < 0 ↔ CanForce 3 4 3 false true ConnectBoard.empty)
      ∧ (s = 0 ↔ (¬ CanForce 3 4 3 true true ConnectBoard.empty
                  ∧ ¬ CanForce 3 4 3 false true ConnectBoard.empty)) :=
  ⟨by decide, C1_score_sign_is_game_value 3 4 3 true (by decide) (by decide) (by decide)
    (by decide) (Or.inl rfl)⟩

theorem score_3x4_distinct :
    ∀ k, k ≤ 12 → ∀ k2, k2 ≤ 12 → k % 2 = 1 → k2 % 2 = 1 →
      FullMiniMax.score 3 4 k ≠ FullMiniMax.score 3 4 (k2 + 1) := by
  decide

/-- C7 (failing input): on the empty 3 × 4 board with target 3 both strategies
return a score, and the scores differ: the first player can force a win, so
the optimized search returns `score(k)` with `k` odd (the number of stones on
the won board) and the plain search `score(k + 1)` with `k` odd. -/
theorem C7_scores_differ :
    (scoreOf ((FullMiniMax.fresh 3 4 3 true).call ConnectBoard.empty)).isSome = true
    ∧ (scoreOf ((FullMiniMax.fresh 3 4 3 false).call ConnectBoard.empty)).isSome = true
    ∧ scoreOf ((FullMiniMax.fresh 3 4 3 true).call ConnectBoard.empty)
      ≠ scoreOf ((FullMiniMax.fresh 3 4 3 false).call ConnectBoard.empty) := by
  obtain ⟨s1, m1, e1, hc1, ⟨hp1, _⟩, hf1⟩ :=
    FullMiniMax.call_empty_sound 3 4 3 true (by decide) (by decide) (by decide) (by decide)
  obtain ⟨s2, m2, e2, hc2, ⟨hp2, _⟩, hf2⟩ :=
    FullMiniMax.call_empty_sound 3 4 3 false (by decide) (by decide) (by decide) (by decide)
  have h1 : 0 < s1 := hp1.2 first_player_wins_3x4
  have h2 : 0 < s2 := hp2.2 first_player_wins_3x4
  have hf1b : FormE 3 4 s1 := by simpa using hf1
  have hf2b : FormP 3 4 s2 := by simpa using hf2
  rw [hc1, hc2]
  refine ⟨rfl, rfl, ?_⟩
  simp only [scoreOf, Option.map_some', ne_eq, Option.some.injEq]
  intro heq
  rcases hf1b with h | ⟨k, _, hk, ⟨hodd, hs1⟩ | ⟨_, hs1⟩⟩
  · omega
  · rcases hf2b with h | ⟨k2, _, hk2, ⟨hodd2, hs2⟩ | ⟨_, hs2⟩⟩
    · omega
    · exact score_3x4_distinct k hk k2 hk2 hodd hodd2 (by rw [← hs1, ← hs2]; exact heq)
    · have := (FullMiniMax.score_bound 3 4 (k2 + 1) (by decide) (by decide)).1
      omega
  · have := (FullMiniMax.score_bound 3 4 k (by decide) (by decide)).1
    omega

/-- The part of C7 that holds: for every `rows` and `cols` in `1..7` and every
chain, a fresh optimized engine and a fresh plain engine queried on the empty
board return scores of the same sign: both positive, both negative or both
zero. -/
theorem C7_same_sign (rows cols chain : Nat) (hrows1 : 1 ≤ rows) (hrows : rows ≤ 7)
    (hcols1 : 1 ≤ cols) (hcols : cols ≤ 7) :
    ∃ s1 m1 e1 s2 m2 e2,
      (FullMiniMax.fresh rows cols chain true).call ConnectBoard.empty = some ((s1, m1), e1)
      ∧ (FullMiniMax.fresh rows cols chain false).call ConnectBoard.empty = some ((s2, m2), e2)
      ∧ (0 < s1 ↔ 0 < s2) ∧ (s1 < 0 ↔ s2 < 0) ∧ (s1 = 0 ↔ s2 = 0) := by
  obtain ⟨s1, m1, e1, hc1, ⟨hp1, hn1⟩, _⟩ :=
    FullMiniMax.call_empty_sound rows cols chain true hrows1 hrows hcols1 hcols
  obtain ⟨s2, m2, e2, hc2, ⟨hp2, hn2⟩, _⟩ :=
    FullMiniMax.call_empty_sound rows cols chain false hrows1 hrows hcols1 hcols
  have r1 : rel true s1 = s1 := rfl
  have r2 : rel true s2 = s2 := rfl
  rw [r1] at hp1 hn1
  rw [r2] at hp2 hn2
  have a : 0 < s1 ↔ 0 < s2 := hp1.trans hp2.symm
  have b : s1 < 0 ↔ s2 < 0 := hn1.trans hn2.symm
  refine ⟨s1, m1, e1, s2, m2, e2, hc1, hc2, a, b, ?_⟩
  omega

theorem C7_same_sign_witness :
    (1 ≤ 3 ∧ 3 ≤ 7 ∧ 1 ≤ 4 ∧ 4 ≤ 7)
    ∧ ∃ s1 m1 e1 s2 m2 e2,
      (FullMiniMax.fresh 3 4 3 true).call ConnectBoard.empty = some ((s1, m1), e1)
      ∧ (FullMiniMax.fresh 3 4 3 false).call ConnectBoard.empty = some ((s2, m2), e2)
      ∧ (0 < s1 ↔ 0 < s2) ∧ (s1 < 0 ↔ s2 < 0) ∧ (s1 = 0 ↔ s2 = 0) :=
  ⟨by decide, C7_same_sign 3 4 3 (by decide) (by decide) (by decide) (by decide)⟩

/-! ## The heuristic engine: termination, range of the scores, immediate wins -/

theorem legal_owner_bounds (rows cols : Nat) (hrows1 : 1 ≤ rows) (hrows : rows ≤ 7)
    (hcols : cols ≤ 7) (ms : List Nat) (hl : legal rows cols ms = true) (c r : Nat) (x : Bool)
    (ho : owner ms c r = some x) : c < cols ∧ r < rows := by
  have hst := legal_stacked rows cols hrows1 hrows hcols ms hl
  have h1 := ownerFrom_some_lt ms c r 0 x ho
  have h2 := hst.2.1 c
  have hmem : c ∈ ms := List.count_pos_iff.1 (by omega)
  exact ⟨hst.1 c hmem, by omega⟩

theorem legal_cell_bits (rows cols : Nat) (hrows1 : 1 ≤ rows) (hrows : rows ≤ 7)
    (hcols : cols ≤ 7) (ms : List Nat) (hl : legal rows cols ms = true) (c r : Nat)
    (hr : r < 8) (hne : 8 * c + r ≠ 63) (x : Bool) :
    ((∃ c2 r2, 8 * c + r = 8 * c2 + r2 ∧ owner ms c2 r2 = some x) ↔ owner ms c r = some x) := by
  constructor
  · rintro ⟨c2, r2, he, ho⟩
    have hb := legal_owner_bounds rows cols hrows1 hrows hcols ms hl c2 r2 x ho
    have hc : c2 = c := by omega
    have hr2 : r2 = r := by omega
    rw [← hc, ← hr2]
    exact ho
  · intro ho
    exact ⟨c, r, rfl, ho⟩

theorem legal_mover_bit (rows cols : Nat) (hrows1 : 1 ≤ rows) (hrows : rows ≤ 7)
    (hcols : cols ≤ 7) (ms : List Nat) (hl : legal rows cols ms = true) (c r : Nat)
    (hr : r < 8) (hne : 8 * c + r ≠ 63) :
    (((play ms).player ^^^ (play ms).pieces).testBit (8 * c + r) = true
      ↔ owner ms c r = some (lastMover ms))
    ∧ ((play ms).player.testBit (8 * c + r) = true ↔ owner ms c r = some (!lastMover ms)) := by
  obtain ⟨h1, h2⟩ := legal_owner_bits rows cols hrows1 hrows hcols ms hl (8 * c + r) hne
  exact ⟨h1.trans (legal_cell_bits rows cols hrows1 hrows hcols ms hl c r hr hne _),
    h2.trans (legal_cell_bits rows cols hrows1 hrows hcols ms hl c r hr hne _)⟩

theorem is_player_one_eq_lastMover (ms : List Nat) : (play ms).is_player_one = lastMover ms := by
  obtain ⟨_, h2⟩ := foldl_make_move_bit63 ms ConnectBoard.empty empty_pieces_bit63
  have h0 : ConnectBoard.empty.player.testBit 63 = false := by decide
  rw [is_player_one_eq_testBit]
  show (ms.foldl ConnectBoard.make_move ConnectBoard.empty).player.testBit 63 = _
  rw [h2, h0]
  unfold lastMover
  by_cases h : ms.length % 2 = 1 <;> simp [h]

/-- C21: for every position reached from the empty board by legal moves on a
`rows × cols` board and every in-bounds cell, `print_board` writes `X` for a
stone of the first player, `O` for a stone of the second player and a blank
for an empty cell, whatever the number of moves played. -/
theorem C21_print_cell_by_owner (rows cols : Nat) (hrows1 : 1 ≤ rows) (hrows : rows ≤ 7)
    (hcols : cols ≤ 7) (ms : List Nat) (hl : legal rows cols ms = true) (c r : Nat)
    (hc : c < cols) (hr : r < rows) :
    (play ms).print_cell r c = symbolOf (owner ms c r) := by
  have hne : 8 * c + r ≠ 63 := by omega
  obtain ⟨hA, hB⟩ := legal_mover_bit rows cols hrows1 hrows hcols ms hl c r (by omega) hne
  have hidx : c * 8 + r = 8 * c + r := by omega
  unfold ConnectBoard.print_cell
  simp only [hidx]
  rw [shl_one _ (by omega), land_two_pow_ne_zero, land_two_pow_ne_zero,
    is_player_one_eq_lastMover]
  rw [Nat.testBit_xor] at hA
  cases ho : owner ms c r with
  | none =>
    have h1 : (play ms).player.testBit (8 * c + r) = false := by
      by_contra hne2
      have := hB.1 (by simpa using hne2)
      rw [ho] at this
      exact Option.noConfusion this
    have h2 : (play ms).pieces.testBit (8 * c + r) = false := by
      by_contra hne2
      have hp : (play ms).pieces.testBit (8 * c + r) = true := by simpa using hne2
      have := hA.1 (by rw [h1, hp]; rfl)
      rw [ho] at this
      exact Option.noConfusion this
    simp [h1, h2, symbolOf]
  | some o =>
    by_cases hm : o = lastMover ms
    · have hx : xor ((play ms).player.testBit (8 * c + r))
          ((play ms).pieces.testBit (8 * c + r)) = true := hA.2 (by rw [ho, hm])
      have h1 : (play ms).player.testBit (8 * c + r) = false := by
        by_contra hne2
        have := hB.1 (by simpa using hne2)
        rw [ho, hm] at this
        have := Option.some.inj this
        cases lastMover ms <;> simp at this
      have h2 : (play ms).pieces.testBit (8 * c + r) = true := by
        rw [h1] at hx
        simpa using hx
      rw [hm]
      cases lastMover ms <;> simp [h1, h2, symbolOf]
    · have hm2 : o = !lastMover ms := by
        cases o <;> cases hlm : lastMover ms <;> simp [hlm] at hm ⊢
      have h1 : (play ms).player.testBit (8 * c + r) = true := hB.2 (by rw [ho, hm2])
      rw [hm2]
      cases lastMover ms <;> simp [h1, symbolOf]

theorem C21_print_cell_by_owner_witness :
    (1 ≤ 2 ∧ 2 ≤ 7 ∧ 2 ≤ 7 ∧ legal 2 2 [0, 0, 1] = true ∧ 0 < 2 ∧ 1 < 2)
    ∧ (play [0, 0, 1]).print_cell 1 0 = symbolOf (owner [0, 0, 1] 0 1) :=
  ⟨by decide!, C21_print_cell_by_owner 2 2 (by decide) (by decide) (by decide) [0, 0, 1]
    (by decide!) 0 1 (by decide) (by decide)⟩

/-! ## The structural invariant of `pieces` -/

theorem move_testBit (p k h : Nat) (hlow : ∀ j, j < h → p.testBit (k + j) = true)
    (hh : p.testBit (k + h) = false) (hk : k + h < 64) (i : Nat) :
    (p ||| ((p + shl 1 k) % W)).testBit i = (p.testBit i || decide (i = k + h)) := by
  rw [shl_one k (by omega)]
  unfold W
  rw [Nat.testBit_or, Nat.testBit_mod_two_pow, add_two_pow_testBit p k h hlow hh i]
  by_cases h1 : i < k
  · have h2 : ¬ (i = k + h) := by omega
    simp [h1, h2]
  · by_cases h2 : i < k + h
    · have h3 : ¬ (i = k + h) := by omega
      simp [h1, h2, h3]
    · by_cases h3 : i = k + h
      · have h4 : i < 64 := by omega
        simp [h1, h3, hk]
      · simp [h1, h2, h3]

theorem Structured.structured_empty (rows cols : Nat) (hcols : cols ≤ 7) :
    Structured rows cols ConnectBoard.empty.pieces := by
  have he : ConnectBoard.empty.pieces = 2 ^ 63 := shl_one 63 (by omega)
  rw [he]
  refine ⟨by rw [Nat.testBit_two_pow_self], ?_, ?_⟩
  · intro c hc
    refine ⟨0, Nat.zero_le _, ?_⟩
    intro r hr
    rw [Nat.testBit_two_pow]
    have : ¬ (63 = 8 * c + r) := by omega
    simp [this]
  · intro i hi _
    rw [Nat.testBit_two_pow]
    have : ¬ (63 = i) := fun e => hi e.symm
    simp [this]

theorem Structured.structured_move {rows cols : Nat} {p : Nat} (hs : Structured rows cols p)
    (hrows1 : 1 ≤ rows) (hrows : rows ≤ 7) (hcols : cols ≤ 7) (pl c : Nat) (hc : c < cols)
    (hv : ConnectBoard.is_invalid_move { player := pl, pieces := p } c rows = false) :
    Structured rows cols (ConnectBoard.make_move { player := pl, pieces := p } c).pieces := by
  obtain ⟨h63, hcol, hout⟩ := hs
  obtain ⟨h, hh, hbits⟩ := hcol c hc
  have hlt : h < rows := by
    unfold ConnectBoard.is_invalid_move at hv
    have e : 8 * c + rows - 1 = 8 * c + (rows - 1) := by omega
    rw [e] at hv
    simp only [] at hv
    rw [shl_one _ (by omega), land_two_pow_ne_zero, hbits (rows - 1) (by omega)] at hv
    have : ¬ (rows - 1 < h) := by simpa using hv
    omega
  have hlow : ∀ j, j < h → p.testBit (8 * c + j) = true := by
    intro j hj
    rw [hbits j (by omega)]
    simpa using hj
  have hhi : p.testBit (8 * c + h) = false := by
    rw [hbits h (by omega)]
    simp
  have hmv := move_testBit p (8 * c) h hlow hhi (by omega)
  show Structured rows cols (p ||| ((p + shl 1 (8 * c)) % W))
  refine ⟨?_, ?_, ?_⟩
  · rw [hmv, h63]; rfl
  · intro c2 hc2
    by_cases hcc : c2 = c
    · subst hcc
      refine ⟨h + 1, by omega, ?_⟩
      intro r hr
      rw [hmv, hbits r hr]
      by_cases h1 : r < h
      · have h2 : r < h + 1 := by omega
        simp [h1, h2]
      · by_cases h2 : r = h
        · simp [h2]
        · have h3 : ¬ (r < h + 1) := by omega
          have h4 : ¬ (8 * c2 + r = 8 * c2 + h) := by omega
          simp [h1, h3, h4]
    · obtain ⟨h2, hh2, hbits2⟩ := hcol c2 hc2
      refine ⟨h2, hh2, ?_⟩
      intro r hr
      rw [hmv, hbits2 r hr]
      have h4 : ¬ (8 * c2 + r = 8 * c + h) := by omega
      simp [h4]
  · intro i hi hge
    rw [hmv, hout i hi hge]
    have h4 : ¬ (i = 8 * c + h) := by
      intro e
      have : i / 8 = c := by omega
      omega
    simp [h4]

/-- C22: for `rows` and `cols` in `1 .. 7`, the empty board satisfies the
structural invariant (bit 63 of `pieces` set, in every column `c < cols` the set
bits are exactly the rows below some height `h ≤ rows`, no bit of a column
`≥ cols` other than bit 63), every `make_move` into a column `c < cols` that
passes the `is_invalid_move(c, rows)` check preserves it, so every position
reached from the empty board by such moves satisfies it, and there the guard
bit `8 * c + 7` of every column is clear. -/
theorem C22_pieces_structured (rows cols : Nat) (hrows1 : 1 ≤ rows) (hrows : rows ≤ 7)
    (hcols1 : 1 ≤ cols) (hcols : cols ≤ 7) :
    Structured rows cols ConnectBoard.empty.pieces
    ∧ (∀ (b : ConnectBoard) (c : Nat), Structured rows cols b.pieces → c < cols →
        b.is_invalid_move c rows = false → Structured rows cols (b.make_move c).pieces)
    ∧ (∀ ms, legal rows cols ms = true →
        Structured rows cols (play ms).pieces
        ∧ ∀ c, c < cols → (play ms).pieces.testBit (8 * c + 7) = false) := by
  have hmove : ∀ (b : ConnectBoard) (c : Nat), Structured rows cols b.pieces → c < cols →
      b.is_invalid_move c rows = false → Structured rows cols (b.make_move c).pieces := by
    intro b c hs hc hv
    cases b with
    | mk pl p => exact hs.structured_move hrows1 hrows hcols pl c hc hv
  have hall : ∀ ms, legal rows cols ms = true → Structured rows cols (play ms).pieces := by
    apply legal_induction
    · exact Structured.structured_empty rows cols hcols
    · intro ms c _ ih hc hv
      rw [play_append]
      exact hmove (play ms) c ih hc hv
  refine ⟨Structured.structured_empty rows cols hcols, hmove, ?_⟩
  intro ms hl
  refine ⟨hall ms hl, ?_⟩
  intro c hc
  obtain ⟨h, hh, hbits⟩ := (hall ms hl).2.1 c hc
  rw [hbits 7 (by omega)]
  have : ¬ (7 < h) := by omega
  simp [this]

theorem C22_pieces_structured_witness :
    (1 ≤ 3 ∧ 3 ≤ 7 ∧ 1 ≤ 4 ∧ 4 ≤ 7)
    ∧ (Structured 3 4 ConnectBoard.empty.pieces
      ∧ (∀ (b : ConnectBoard) (c : Nat), Structured 3 4 b.pieces → c < 4 →
          b.is_invalid_move c 3 = false → Structured 3 4 (b.make_move c).pieces)
      ∧ (∀ ms, legal 3 4 ms = true →
          Structured 3 4 (play ms).pieces
          ∧ ∀ c, c < 4 → (play ms).pieces.testBit (8 * c + 7) = false)) :=
  ⟨by decide, C22_pieces_structured 3 4 (by decide) (by decide) (by decide) (by decide)⟩

/-! ## Exactness of the win test off the 7 × 7 board -/

theorem shl_testBit (x k i : Nat) :
    (shl x k).testBit i = (decide (i < 64) && (decide (k ≤ i) && x.testBit (i - k))) := by
  unfold shl W
  rw [Nat.testBit_mod_two_pow, Nat.testBit_shiftLeft]

theorem ne_zero_iff_testBit (x : Nat) : (x != 0) = true ↔ ∃ i, x.testBit i = true := by
  constructor
  · intro h
    have hne : x ≠ 0 := by simpa using h
    exact Nat.ne_zero_implies_bit_true hne
  · rintro ⟨i, hi⟩
    have hne : x ≠ 0 := by
      intro e
      rw [e] at hi
      simp at hi
    simpa using hne

theorem fold_check_iff (M o o2 : Nat) :
    ConnectBoard.fold_check M o o2 = true ↔ ∃ i, i < 64 ∧ o + o2 ≤ i ∧ M.testBit i = true
      ∧ M.testBit (i - o) = true ∧ M.testBit (i - o2) = true
      ∧ M.testBit (i - o2 - o) = true := by
  unfold ConnectBoard.fold_check
  simp only []
  rw [ne_zero_iff_testBit]
  constructor
  · rintro ⟨i, hi⟩
    rw [Nat.testBit_and, shl_testBit, Nat.testBit_and, Nat.testBit_and, shl_testBit,
      shl_testBit] at hi
    simp only [Bool.and_eq_true, decide_eq_true_eq] at hi
    obtain ⟨⟨h1, h2, h3, h4⟩, h5, h6, h7, h8, h9, h10⟩ := hi
    exact ⟨i, h2, by omega, h1, h4, h7, h10⟩
  · rintro ⟨i, h1, h2, h3, h4, h5, h6⟩
    refine ⟨i, ?_⟩
    rw [Nat.testBit_and, shl_testBit, Nat.testBit_and, Nat.testBit_and, shl_testBit,
      shl_testBit]
    simp only [Bool.and_eq_true, decide_eq_true_eq]
    exact ⟨⟨h3, h1, by omega, h4⟩, h1, by omega, h5, by omega, by omega, h6⟩

theorem testBit_congr (M a b : Nat) (e : a = b) (h : M.testBit b = true) :
    M.testBit a = true := e ▸ h

theorem line3_of_bits (rows cols M : Nat) (hrows : rows ≤ 7) (hcols : cols ≤ 7)
    (h67 : rows ≤ 6 ∨ cols ≤ 6)
    (H : ∀ i, i ≠ 63 → M.testBit i = true → i / 8 < cols ∧ i % 8 < rows)
    (dir o : Nat)
    (hd : (dir = 0 ∧ o = 1) ∨ (dir = 1 ∧ o = 8) ∨ (dir = 2 ∧ o = 9) ∨ (dir = 3 ∧ o = 7))
    (i : Nat) (hi : i < 64) (hle : o + o ≤ i) (h0 : M.testBit i = true)
    (h1 : M.testBit (i - o) = true) (h2 : M.testBit (i - o - o) = true) :
    ∃ c, c < cols ∧ ∃ r, r < rows ∧ ∀ j, j < 3 →
      maskCell rows cols M (lineCell dir c r j).1 (lineCell dir c r j).2 := by
  have b1 := H (i - o) (by omega) h1
  have b2 := H (i - o - o) (by omega) h2
  have hne : i ≠ 63 := by
    intro e
    subst e
    rcases hd with ⟨_, rfl⟩ | ⟨_, rfl⟩ | ⟨_, rfl⟩ | ⟨_, rfl⟩ <;> omega
  have b0 := H i hne h0
  have hj3 : ∀ j, j < 3 → j = 0 ∨ j = 1 ∨ j = 2 := fun j hj => by omega
  rcases hd with ⟨rfl, rfl⟩ | ⟨rfl, rfl⟩ | ⟨rfl, rfl⟩ | ⟨rfl, rfl⟩
  · refine ⟨i / 8, by omega, i % 8 - 2, by omega, ?_⟩
    intro j hj
    rcases hj3 j hj with rfl | rfl | rfl <;> simp only [lineCell, maskCell] <;>
      refine ⟨by omega, by omega, by omega, ?_⟩ <;>
      first
        | exact testBit_congr M _ _ (by omega) h0
        | exact testBit_congr M _ _ (by omega) h1
        | exact testBit_congr M _ _ (by omega) h2
  · refine ⟨i / 8 - 2, by omega, i % 8, by omega, ?_⟩
    intro j hj
    rcases hj3 j hj with rfl | rfl | rfl <;> simp only [lineCell, maskCell] <;>
      refine ⟨by omega, by omega, by omega, ?_⟩ <;>
      first
        | exact testBit_congr M _ _ (by omega) h0
        | exact testBit_congr M _ _ (by omega) h1
        | exact testBit_congr M _ _ (by omega) h2
  · refine ⟨i / 8 - 2, by omega, i % 8 - 2, by omega, ?_⟩
    intro j hj
    rcases hj3 j hj with rfl | rfl | rfl <;> simp only [lineCell, maskCell] <;>
      refine ⟨by omega, by omega, by omega, ?_⟩ <;>
      first
        | exact testBit_congr M _ _ (by omega) h0
        | exact testBit_congr M _ _ (by omega) h1
        | exact testBit_congr M _ _ (by omega) h2
  · refine ⟨i / 8 - 2, by omega, i % 8 + 2, by omega, ?_⟩
    intro j hj
    rcases hj3 j hj with rfl | rfl | rfl <;> simp only [lineCell, maskCell] <;>
      refine ⟨by omega, by omega, by omega, ?_⟩ <;>
      first
        | exact testBit_congr M _ _ (by omega) h0
        | exact testBit_congr M _ _ (by omega) h1
        | exact testBit_congr M _ _ (by omega) h2

theorem bits_of_line3 (rows cols M : Nat) (hrows : rows ≤ 7) (hcols : cols ≤ 7)
    (dir o : Nat)
    (hd : (dir = 0 ∧ o = 1) ∨ (dir = 1 ∧ o = 8) ∨ (dir = 2 ∧ o = 9) ∨ (dir = 3 ∧ o = 7))
    (c r : Nat)
    (hm : ∀ j, j < 3 → maskCell rows cols M (lineCell dir c r j).1 (lineCell dir c r j).2) :
    ∃ i, i < 64 ∧ o + o ≤ i ∧ M.testBit i = true ∧ M.testBit (i - o) = true
      ∧ M.testBit (i - o - o) = true := by
  have m0 := hm 0 (by omega)
  have m1 := hm 1 (by omega)
  have m2 := hm 2 (by omega)
  rcases hd with ⟨rfl, rfl⟩ | ⟨rfl, rfl⟩ | ⟨rfl, rfl⟩ | ⟨rfl, rfl⟩ <;>
    simp only [lineCell, maskCell] at m0 m1 m2 <;>
    obtain ⟨a0, a1, a2, a3⟩ := m0 <;>
    obtain ⟨b0, b1, b2, b3⟩ := m1 <;>
    obtain ⟨c0, c1, c2, c3⟩ := m2
  · exact ⟨8 * c + r + 2, by omega, by omega, testBit_congr M _ _ (by omega) c3,
      testBit_congr M _ _ (by omega) b3, testBit_congr M _ _ (by omega) a3⟩
  · exact ⟨8 * (c + 2) + r, by omega, by omega, testBit_congr M _ _ (by omega) c3,
      testBit_congr M _ _ (by omega) b3, testBit_congr M _ _ (by omega) a3⟩
  · exact ⟨8 * (c + 2) + r + 2, by omega, by omega, testBit_congr M _ _ (by omega) c3,
      testBit_congr M _ _ (by omega) b3, testBit_congr M _ _ (by omega) a3⟩
  · exact ⟨8 * (c + 2) + r - 2, by omega, by omega, testBit_congr M _ _ (by omega) c3,
      testBit_congr M _ _ (by omega) b3, testBit_congr M _ _ (by omega) a3⟩

theorem line4_of_bits (rows cols M : Nat) (hrows : rows ≤ 7) (hcols : cols ≤ 7)
    (h67 : rows ≤ 6 ∨ cols ≤ 6)
    (H : ∀ i, i ≠ 63 → M.testBit i = true → i / 8 < cols ∧ i % 8 < rows)
    (dir o o2 : Nat)
    (hd : (dir = 0 ∧ o = 1 ∧ o2 = 2) ∨ (dir = 1 ∧ o = 8 ∧ o2 = 16)
      ∨ (dir = 2 ∧ o = 9 ∧ o2 = 18) ∨ (dir = 3 ∧ o = 7 ∧ o2 = 14))
    (i : Nat) (hi : i < 64) (hle : o + o2 ≤ i) (h0 : M.testBit i = true)
    (h1 : M.testBit (i - o) = true) (h2 : M.testBit (i - o2) = true)
    (h3 : M.testBit (i - o2 - o) = true) :
    ∃ c, c < cols ∧ ∃ r, r < rows ∧ ∀ j, j < 4 →
      maskCell rows cols M (lineCell dir c r j).1 (lineCell dir c r j).2 := by
  have ho : 1 ≤ o ∧ 1 ≤ o2 := by omega
  have b1 := H (i - o) (by omega) h1
  have b2 := H (i - o2) (by omega) h2
  have b3 := H (i - o2 - o) (by omega) h3
  have hne : i ≠ 63 := by
    intro e
    subst e
    rcases hd with ⟨_, rfl, _⟩ | ⟨_, rfl, _⟩ | ⟨_, rfl, _⟩ | ⟨_, rfl, _⟩ <;> omega
  have b0 := H i hne h0
  have hj4 : ∀ j, j < 4 → j = 0 ∨ j = 1 ∨ j = 2 ∨ j = 3 := fun j hj => by omega
  rcases hd with ⟨rfl, rfl, rfl⟩ | ⟨rfl, rfl, rfl⟩ | ⟨rfl, rfl, rfl⟩ | ⟨rfl, rfl, rfl⟩
  · refine ⟨i / 8, by omega, i % 8 - 3, by omega, ?_⟩
    intro j hj
    rcases hj4 j hj with rfl | rfl | rfl | rfl <;> simp only [lineCell, maskCell] <;>
      refine ⟨by omega, by omega, by omega, ?_⟩ <;>
      first
        | exact testBit_congr M _ _ (by omega) h0
        | exact testBit_congr M _ _ (by omega) h1
        | exact testBit_congr M _ _ (by omega) h2
        | exact testBit_congr M _ _ (by omega) h3
  · refine ⟨i / 8 - 3, by omega, i % 8, by omega, ?_⟩
    intro j hj
    rcases hj4 j hj with rfl | rfl | rfl | rfl <;> simp only [lineCell, maskCell] <;>
      refine ⟨by omega, by omega, by omega, ?_⟩ <;>
      first
        | exact testBit_congr M _ _ (by omega) h0
        | exact testBit_congr M _ _ (by omega) h1
        | exact testBit_congr M _ _ (by omega) h2
        | exact testBit_congr M _ _ (by omega) h3
  · refine ⟨i / 8 - 3, by omega, i % 8 - 3, by omega, ?_⟩
    intro j hj
    rcases hj4 j hj with rfl | rfl | rfl | rfl <;> simp only [lineCell, maskCell] <;>
      refine ⟨by omega, by omega, by omega, ?_⟩ <;>
      first
        | exact testBit_congr M _ _ (by omega) h0
        | exact testBit_congr M _ _ (by omega) h1
        | exact testBit_congr M _ _ (by omega) h2
        | exact testBit_congr M _ _ (by omega) h3
  · refine ⟨i / 8 - 3, by omega, i % 8 + 3, by omega, ?_⟩
    intro j hj
    rcases hj4 j hj with rfl | rfl | rfl | rfl <;> simp only [lineCell, maskCell] <;>
      refine ⟨by omega, by omega, by omega, ?_⟩ <;>
      first
        | exact testBit_congr M _ _ (by omega) h0
        | exact testBit_congr M _ _ (by omega) h1
        | exact testBit_congr M _ _ (by omega) h2
        | exact testBit_congr M _ _ (by omega) h3

theorem bits_of_line4 (rows cols M : Nat) (hrows : rows ≤ 7) (hcols : cols ≤ 7)
    (dir o o2 : Nat)
    (hd : (dir = 0 ∧ o = 1 ∧ o2 = 2) ∨ (dir = 1 ∧ o = 8 ∧ o2 = 16)
      ∨ (dir = 2 ∧ o = 9 ∧ o2 = 18) ∨ (dir = 3 ∧ o = 7 ∧ o2 = 14))
    (c r : Nat)
    (hm : ∀ j, j < 4 → maskCell rows cols M (lineCell dir c r j).1 (lineCell dir c r j).2) :
    ∃ i, i < 64 ∧ o + o2 ≤ i ∧ M.testBit i = true ∧ M.testBit (i - o) = true
      ∧ M.testBit (i - o2) = true ∧ M.testBit (i - o2 - o) = true := by
  have m0 := hm 0 (by omega)
  have m1 := hm 1 (by omega)
  have m2 := hm 2 (by omega)
  have m3 := hm 3 (by omega)
  rcases hd with ⟨rfl, rfl, rfl⟩ | ⟨rfl, rfl, rfl⟩ | ⟨rfl, rfl, rfl⟩ | ⟨rfl, rfl, rfl⟩ <;>
    simp only [lineCell, maskCell] at m0 m1 m2 m3 <;>
    obtain ⟨a0, a1, a2, a3⟩ := m0 <;>
    obtain ⟨b0, b1, b2, b3⟩ := m1 <;>
    obtain ⟨c0, c1, c2, c3⟩ := m2 <;>
    obtain ⟨d0, d1, d2, d3⟩ := m3
  · exact ⟨8 * c + r + 3, by omega, by omega, testBit_congr M _ _ (by omega) d3,
      testBit_congr M _ _ (by omega) c3, testBit_congr M _ _ (by omega) b3,
      testBit_congr M _ _ (by omega) a3⟩
  · exact ⟨8 * (c + 3) + r, by omega, by omega, testBit_congr M _ _ (by omega) d3,
      testBit_congr M _ _ (by omega) c3, testBit_congr M _ _ (by omega) b3,
      testBit_congr M _ _ (by omega) a3⟩
  · exact ⟨8 * (c + 3) + r + 3, by omega, by omega, testBit_congr M _ _ (by omega) d3,
      testBit_congr M _ _ (by omega) c3, testBit_congr M _ _ (by omega) b3,
      testBit_congr M _ _ (by omega) a3⟩
  · exact ⟨8 * (c + 3) + r - 3, by omega, by omega, testBit_congr M _ _ (by omega) d3,
      testBit_congr M _ _ (by omega) c3, testBit_congr M _ _ (by omega) b3,
      testBit_congr M _ _ (by omega) a3⟩

/-! ### From the mask to ownership -/

theorem mover_mask_decode (rows cols : Nat) (hrows1 : 1 ≤ rows) (hrows : rows ≤ 7)
    (hcols : cols ≤ 7) (ms : List Nat) (hl : legal rows cols ms = true) (i : Nat)
    (hi : i ≠ 63) (hb : ((play ms).player ^^^ (play ms).pieces).testBit i = true) :
    i / 8 < cols ∧ i % 8 < rows := by
  obtain ⟨c, r, he, ho⟩ := (legal_owner_bits rows cols hrows1 hrows hcols ms hl i hi).1.1 hb
  have hb := legal_owner_bounds rows cols hrows1 hrows hcols ms hl c r _ ho
  omega

theorem ownsCell_iff_maskCell (rows cols : Nat) (hrows1 : 1 ≤ rows) (hrows : rows ≤ 7)
    (hcols : cols ≤ 7) (ms : List Nat) (hl : legal rows cols ms = true) (c : Nat) (r : Int) :
    ownsCell rows cols ms (lastMover ms) c r = true
      ↔ maskCell rows cols ((play ms).player ^^^ (play ms).pieces) c r := by
  unfold ownsCell maskCell
  simp only [Bool.and_eq_true, decide_eq_true_eq, beq_iff_eq]
  constructor
  · rintro ⟨⟨⟨h1, h2⟩, h3⟩, h4⟩
    have hb := legal_owner_bounds rows cols hrows1 hrows hcols ms hl c r.toNat _ h4
    exact ⟨h1, h2, h3,
      (legal_mover_bit rows cols hrows1 hrows hcols ms hl c r.toNat (by omega)
        (by omega)).1.2 h4⟩
  · rintro ⟨h1, h2, h3, h4⟩
    have hr : r.toNat < rows := by omega
    exact ⟨⟨⟨h1, h2⟩, h3⟩,
      (legal_mover_bit rows cols hrows1 hrows hcols ms hl c r.toNat (by omega)
        (by omega)).1.1 h4⟩

theorem hasLine_iff (rows cols k : Nat) (ms : List Nat) (p : Bool) :
    hasLine rows cols k ms p = true
      ↔ ∃ dir, dir < 4 ∧ ∃ c, c < cols ∧ ∃ r, r < rows ∧ ∀ j, j < k →
          ownsCell rows cols ms p (lineCell dir c r j).1 (lineCell dir c r j).2 = true := by
  unfold hasLine
  simp only [List.any_eq_true, List.all_eq_true, List.mem_range]

theorem game_over_three_iff (rows cols : Nat) (hrows1 : 1 ≤ rows) (hrows : rows ≤ 7)
    (hcols : cols ≤ 7) (h67 : rows ≤ 6 ∨ cols ≤ 6) (ms : List Nat)
    (hl : legal rows cols ms = true) :
    (play ms).connect_three_game_over = true ↔ hasLine rows cols 3 ms (lastMover ms) = true := by
  have H := mover_mask_decode rows cols hrows1 hrows hcols ms hl
  have hO := ownsCell_iff_maskCell rows cols hrows1 hrows hcols ms hl
  rw [hasLine_iff]
  unfold ConnectBoard.connect_three_game_over
  simp only []
  constructor
  · intro h
    have hdir : ∃ dir o, ((dir = 0 ∧ o = 1) ∨ (dir = 1 ∧ o = 8) ∨ (dir = 2 ∧ o = 9)
        ∨ (dir = 3 ∧ o = 7))
        ∧ ConnectBoard.fold_check ((play ms).player ^^^ (play ms).pieces) o o = true := by
      split_ifs at h with h1 h2 h3
      · exact ⟨1, 8, by omega, h1⟩
      · exact ⟨0, 1, by omega, h2⟩
      · exact ⟨3, 7, by omega, h3⟩
      · exact ⟨2, 9, by omega, h⟩
    obtain ⟨dir, o, hd, hf⟩ := hdir
    obtain ⟨i, hi, hle, b0, b1, _, b2⟩ := (fold_check_iff _ o o).1 hf
    obtain ⟨c, hc, r, hr, hm⟩ := line3_of_bits rows cols _ hrows hcols h67 H dir o hd i hi hle
      b0 b1 b2
    exact ⟨dir, by omega, c, hc, r, hr, fun j hj => (hO _ _).2 (hm j hj)⟩
  · rintro ⟨dir, hdir, c, hc, r, hr, hm⟩
    have hfold : ∀ o, ((dir = 0 ∧ o = 1) ∨ (dir = 1 ∧ o = 8) ∨ (dir = 2 ∧ o = 9)
        ∨ (dir = 3 ∧ o = 7)) →
        ConnectBoard.fold_check ((play ms).player ^^^ (play ms).pieces) o o = true := by
      intro o hd
      obtain ⟨i, hi, hle, b0, b1, b2⟩ := bits_of_line3 rows cols _ hrows hcols dir o hd c r
        (fun j hj => (hO _ _).1 (hm j hj))
      exact (fold_check_iff _ o o).2 ⟨i, hi, hle, b0, b1, b1, b2⟩
    have hcases : dir = 0 ∨ dir = 1 ∨ dir = 2 ∨ dir = 3 := by omega
    rcases hcases with h0 | h0 | h0 | h0
    · have := hfold 1 (by omega)
      split_ifs <;> simp_all
    · have := hfold 8 (by omega)
      split_ifs <;> simp_all
    · have := hfold 9 (by omega)
      split_ifs <;> simp_all
    · have := hfold 7 (by omega)
      split_ifs <;> simp_all

theorem game_over_four_iff (rows cols : Nat) (hrows1 : 1 ≤ rows) (hrows : rows ≤ 7)
    (hcols : cols ≤ 7) (h67 : rows ≤ 6 ∨ cols ≤ 6) (ms : List Nat)
    (hl : legal rows cols ms = true) :
    (play ms).connect_four_game_over = true ↔ hasLine rows cols 4 ms (lastMover ms) = true := by
  have H := mover_mask_decode rows cols hrows1 hrows hcols ms hl
  have hO := ownsCell_iff_maskCell rows cols hrows1 hrows hcols ms hl
  rw [hasLine_iff]
  unfold ConnectBoard.connect_four_game_over
  simp only []
  constructor
  · intro h
    have hdir : ∃ dir o o2, ((dir = 0 ∧ o = 1 ∧ o2 = 2) ∨ (dir = 1 ∧ o = 8 ∧ o2 = 16)
        ∨ (dir = 2 ∧ o = 9 ∧ o2 = 18) ∨ (dir = 3 ∧ o = 7 ∧ o2 = 14))
        ∧ ConnectBoard.fold_check ((play ms).player ^^^ (play ms).pieces) o o2 = true := by
      split_ifs at h with h1 h2 h3
      · exact ⟨1, 8, 16, by omega, h1⟩
      · exact ⟨0, 1, 2, by omega, h2⟩
      · exact ⟨3, 7, 14, by omega, h3⟩
      · exact ⟨2, 9, 18, by omega, h⟩
    obtain ⟨dir, o, o2, hd, hf⟩ := hdir
    obtain ⟨i, hi, hle, b0, b1, b2, b3⟩ := (fold_check_iff _ o o2).1 hf
    obtain ⟨c, hc, r, hr, hm⟩ := line4_of_bits rows cols _ hrows hcols h67 H dir o o2 hd i hi
      hle b0 b1 b2 b3
    exact ⟨dir, by omega, c, hc, r, hr, fun j hj => (hO _ _).2 (hm j hj)⟩
  · rintro ⟨dir, hdir, c, hc, r, hr, hm⟩
    have hfold : ∀ o o2, ((dir = 0 ∧ o = 1 ∧ o2 = 2) ∨ (dir = 1 ∧ o = 8 ∧ o2 = 16)
        ∨ (dir = 2 ∧ o = 9 ∧ o2 = 18) ∨ (dir = 3 ∧ o = 7 ∧ o2 = 14)) →
        ConnectBoard.fold_check ((play ms).player ^^^ (play ms).pieces) o o2 = true := by
      intro o o2 hd
      exact (fold_check_iff _ o o2).2 (bits_of_line4 rows cols _ hrows hcols dir o o2 hd c r
        (fun j hj => (hO _ _).1 (hm j hj)))
    have hcases : dir = 0 ∨ dir = 1 ∨ dir = 2 ∨ dir = 3 := by omega
    rcases hcases with h0 | h0 | h0 | h0
    · have := hfold 1 2 (by omega)
      split_ifs <;> simp_all
    · have := hfold 8 16 (by omega)
      split_ifs <;> simp_all
    · have := hfold 9 18 (by omega)
      split_ifs <;> simp_all
    · have := hfold 7 14 (by omega)
      split_ifs <;> simp_all

/-- C23: on a `rows × cols` board with `rows` and `cols` in `1 .. 7` and not
both `7`, for `k = 3` and `k = 4` and every position reached from the empty
board by at least one legal move, `game_over(k)` is true
exactly when the player who made the most recent move owns `k` consecutive
in-bounds cells along a vertical, horizontal or diagonal line. -/
theorem C23_game_over_exact (rows cols k : Nat) (hrows1 : 1 ≤ rows) (hrows : rows ≤ 7)
    (hcols1 : 1 ≤ cols) (hcols : cols ≤ 7) (h67 : rows ≤ 6 ∨ cols ≤ 6)
    (hk : k = 3 ∨ k = 4) (ms : List Nat) (hl : legal rows cols ms = true)
    (hlen : 1 ≤ ms.length) :
    (play ms).game_over k = hasLine rows cols k ms (lastMover ms) := by
  rw [Bool.eq_iff_iff]
  unfold ConnectBoard.game_over
  rcases hk with rfl | rfl
  · rw [← game_over_three_iff rows cols hrows1 hrows hcols h67 ms hl]
    simp
  · rw [← game_over_four_iff rows cols hrows1 hrows hcols h67 ms hl]
    simp

theorem C23_game_over_exact_witness :
    (1 ≤ 3 ∧ 3 ≤ 7 ∧ 1 ≤ 3 ∧ 3 ≤ 7 ∧ (3 ≤ 6 ∨ 3 ≤ 6) ∧ (3 = 3 ∨ 3 = 4)
      ∧ legal 3 3 [0, 1, 0, 1, 0] = true ∧ 1 ≤ [0, 1, 0, 1, 0].length)
    ∧ (play [0, 1, 0, 1, 0]).game_over 3
        = hasLine 3 3 3 [0, 1, 0, 1, 0] (lastMover [0, 1, 0, 1, 0]) :=
  ⟨by decide!, C23_game_over_exact 3 3 3 (by decide) (by decide) (by decide) (by decide)
    (by decide) (by decide) [0, 1, 0, 1, 0] (by decide!) (by decide)⟩

/-! ## Immediate wins on reachable positions -/

theorem maskOf_testBit (P : Nat → Bool) (n j : Nat) :
    (maskOf P n).testBit j = (decide (j < n) && P j) := by
  induction n with
  | zero => simp [maskOf]
  | succ n ih =>
    rw [maskOf, Nat.testBit_or, ih]
    by_cases hj : j = n
    · subst hj
      cases hP : P j <;> simp [hP]
    · have h2 : ¬ (n = j) := fun e => hj e.symm
      by_cases hlt : j < n
      · have : j < n + 1 := by omega
        cases hP : P n <;> simp [hP, Nat.testBit_two_pow, h2, hlt, this]
      · have : ¬ (j < n + 1) := by omega
        cases hP : P n <;> simp [hP, Nat.testBit_two_pow, h2, hlt, this]

theorem turnBit_testBit (t : Bool) (i : Nat) :
    (turnBit t).testBit i = (t && decide (i = 63)) := by
  cases t
  · simp [turnBit]
  · show (2 ^ 63).testBit i = (true && decide (i = 63))
    rw [Nat.testBit_two_pow, Bool.true_and]
    by_cases h : i = 63
    · simp [h]
    · have h2 : ¬ (63 = i) := fun e => h e.symm
      simp [h, h2]

theorem stones_testBit (rows cols : Nat) (hrows1 : 1 ≤ rows) (hrows : rows ≤ 7)
    (hcols : cols ≤ 7) (ms : List Nat) (hl : legal rows cols ms = true) (p : Bool) (i : Nat) :
    (stones rows cols ms p).testBit i = true
      ↔ ∃ c r, i = 8 * c + r ∧ owner ms c r = some p := by
  unfold stones
  rw [maskOf_testBit]
  simp only [Bool.and_eq_true, decide_eq_true_eq, beq_iff_eq]
  constructor
  · rintro ⟨_, _, h⟩
    exact ⟨i / 8, i % 8, by omega, h⟩
  · rintro ⟨c, r, he, ho⟩
    have hb := legal_owner_bounds rows cols hrows1 hrows hcols ms hl c r p ho
    have hc : i / 8 = c := by omega
    have hr : i % 8 = r := by omega
    rw [hc, hr]
    exact ⟨by omega, ⟨by omega, by omega⟩, ho⟩

theorem legal_registers_eq_stones (rows cols : Nat) (hrows1 : 1 ≤ rows) (hrows : rows ≤ 7)
    (hcols : cols ≤ 7) (ms : List Nat) (hl : legal rows cols ms = true) :
    (play ms).player = stones rows cols ms (!lastMover ms) ||| turnBit (lastMover ms)
    ∧ (play ms).player ^^^ (play ms).pieces
        = stones rows cols ms (lastMover ms) ||| turnBit (!lastMover ms) := by
  obtain ⟨hp63, h2⟩ := foldl_make_move_bit63 ms ConnectBoard.empty empty_pieces_bit63
  have h0 : ConnectBoard.empty.player.testBit 63 = false := by decide
  have hpl : (play ms).player.testBit 63 = lastMover ms := by
    show (ms.foldl ConnectBoard.make_move ConnectBoard.empty).player.testBit 63 = _
    rw [h2, h0]
    unfold lastMover
    by_cases h : ms.length % 2 = 1 <;> simp [h]
  have hpc : (play ms).pieces.testBit 63 = true := hp63
  have hs63 : ∀ p, (stones rows cols ms p).testBit 63 = false := by
    intro p
    unfold stones
    rw [maskOf_testBit]
    simp
  constructor
  · apply Nat.eq_of_testBit_eq
    intro i
    rw [Nat.testBit_or, turnBit_testBit]
    by_cases hi : i = 63
    · subst hi
      rw [hpl, hs63]
      simp
    · have hb := (legal_owner_bits rows cols hrows1 hrows hcols ms hl i hi).2
      have hs := stones_testBit rows cols hrows1 hrows hcols ms hl (!lastMover ms) i
      have : (play ms).player.testBit i = (stones rows cols ms (!lastMover ms)).testBit i := by
        rw [Bool.eq_iff_iff]
        exact hb.trans hs.symm
      rw [this]
      simp [hi]
  · apply Nat.eq_of_testBit_eq
    intro i
    rw [Nat.testBit_or, turnBit_testBit]
    by_cases hi : i = 63
    · subst hi
      rw [Nat.testBit_xor, hpl, hpc, hs63]
      cases lastMover ms <;> simp
    · have hb := (legal_owner_bits rows cols hrows1 hrows hcols ms hl i hi).1
      have hs := stones_testBit rows cols hrows1 hrows hcols ms hl (lastMover ms) i
      have : ((play ms).player ^^^ (play ms).pieces).testBit i
          = (stones rows cols ms (lastMover ms)).testBit i := by
        rw [Bool.eq_iff_iff]
        exact hb.trans hs.symm
      rw [this]
      simp [hi]

theorem heuristic_eq_chain_total (chain boundary_spaces : Nat) (b : ConnectBoard) :
    HeuristicMiniMax.heuristic chain boundary_spaces b
      = chain_total chain boundary_spaces b.player b.pieces
        - chain_total chain boundary_spaces (b.player ^^^ b.pieces) b.pieces := by
  by_cases h : chain = 4
  · simp [HeuristicMiniMax.heuristic, chain_total, HeuristicMiniMax.offsets,
      HeuristicMiniMax.heuristic_step, h]
    ring
  · simp [HeuristicMiniMax.heuristic, chain_total, HeuristicMiniMax.offsets,
      HeuristicMiniMax.heuristic_step, h]
    ring

/-- C18 (amended): for every position reached by legal moves on a board with
`rows` and `cols` in `1 .. 7`, the register `player` is the set of stones of
the side to move (the player who did not make the most recent move) together
with the turn bit 63 when the number of moves is odd, `player ^ pieces` is the
set of stones of the player who made the most recent move together with bit 63
when the number of moves is even, and the evaluator returns the weighted chain
total of the first mask minus the weighted chain total of the second. -/
theorem C18_heuristic_by_stones (rows cols chain : Nat) (hrows1 : 1 ≤ rows) (hrows : rows ≤ 7)
    (hcols1 : 1 ≤ cols) (hcols : cols ≤ 7) (ms : List Nat) (hl : legal rows cols ms = true) :
    (play ms).player = stones rows cols ms (!lastMover ms) ||| turnBit (lastMover ms)
    ∧ (play ms).player ^^^ (play ms).pieces
        = stones rows cols ms (lastMover ms) ||| turnBit (!lastMover ms)
    ∧ HeuristicMiniMax.heuristic chain (HeuristicMiniMax.boundary rows cols) (play ms)
        = chain_total chain (HeuristicMiniMax.boundary rows cols)
            (stones rows cols ms (!lastMover ms) ||| turnBit (lastMover ms)) (play ms).pieces
          - chain_total chain (HeuristicMiniMax.boundary rows cols)
            (stones rows cols ms (lastMover ms) ||| turnBit (!lastMover ms)) (play ms).pieces := by
  obtain ⟨h1, h2⟩ := legal_registers_eq_stones rows cols hrows1 hrows hcols ms hl
  refine ⟨h1, h2, ?_⟩
  rw [heuristic_eq_chain_total, ← h1, ← h2]

theorem C18_heuristic_by_stones_witness :
    (1 ≤ 1 ∧ 1 ≤ 7 ∧ 1 ≤ 6 ∧ 6 ≤ 7 ∧ legal 1 6 [0] = true)
    ∧ ((play [0]).player = stones 1 6 [0] (!lastMover [0]) ||| turnBit (lastMover [0])
      ∧ (play [0]).player ^^^ (play [0]).pieces
          = stones 1 6 [0] (lastMover [0]) ||| turnBit (!lastMover [0])
      ∧ HeuristicMiniMax.heuristic 4 (HeuristicMiniMax.boundary 1 6) (play [0])
          = chain_total 4 (HeuristicMiniMax.boundary 1 6)
              (stones 1 6 [0] (!lastMover [0]) ||| turnBit (lastMover [0])) (play [0]).pieces
            - chain_total 4 (HeuristicMiniMax.boundary 1 6)
              (stones 1 6 [0] (lastMover [0]) ||| turnBit (!lastMover [0])) (play [0]).pieces) :=
  ⟨by decide!, C18_heuristic_by_stones 1 6 4 (by decide) (by decide) (by decide) (by decide)
    [0] (by decide!)⟩
